import Mathlib

/-!
Verification of the firestate optimistic-synchronization engine.

The development shallowly embeds the TypeScript source:
  * the diff algebra of `src/diff` (computeDiff, applyDiff / applyDiffMutable,
    deepClone, isDeepEqual, flattenDiff, unflattenDiff, computeUndoDiff),
  * the undo/redo manager of `src/undo`,
  * the per-resource subscription state machines of `src/document` and
    `src/collection` (their pure state-transition cores).

JavaScript data values are modelled by the inductive type `Value`:
null, booleans, numbers, strings, Firestore Timestamps, arrays, plain
objects, and the two Firestore field sentinels (deleteField and
serverTimestamp).  Objects are association lists in insertion order,
matching JavaScript property-insertion-order semantics; object updates
(`obj[k] = v`) keep the position of an existing key and append a new one.

Modelling notes, each marked at its definition:
  * numbers are modelled as integers (no floating point, no NaN);
  * JavaScript reference identity is not representable, so strict equality
    on two Timestamps (and on two sentinel instances) is modelled as
    structural equality; the only place this matters is a redundant diff
    entry for a structurally-equal Timestamp, which no claim depends on;
  * property lookup on non-objects is modelled faithfully where data can
    reach it: arrays expose canonical index keys and a length key, strings
    expose index and length keys, Timestamps expose seconds/nanoseconds,
    sentinels expose their internal _methodName field; inherited prototype
    members (functions) are not data values and are modelled as absent;
  * `Timestamp.now()` (reached by a serverTimestamp sentinel in a diff) is
    modelled by an explicit `now` parameter threaded through applyDiff.
-/

set_option maxHeartbeats 1000000

namespace Firestate

/-- A JavaScript/Firestore runtime value, as manipulated by the diff module. -/
inductive Value where
  | vnull : Value
  | vbool : Bool → Value
  | vint : Int → Value
  | vstr : String → Value
  /-- A Firestore `Timestamp` with seconds and nanoseconds fields. -/
  | vts : Int → Int → Value
  /-- The `deleteField()` sentinel. -/
  | vdel : Value
  /-- The `serverTimestamp()` sentinel. -/
  | vstamp : Value
  | varr : List Value → Value
  | vobj : List (String × Value) → Value
deriving Repr

namespace Value

/-- Association-list lookup, i.e. reading an own property of a JS object. -/
def lookupF : List (String × Value) → String → Option Value
  | [], _ => none
  | (k, v) :: rest, key => if k = key then some v else lookupF rest key

/-- JS property assignment `obj[k] = v`: replace in place if the key exists,
append otherwise (property insertion order). -/
def setKey : List (String × Value) → String → Value → List (String × Value)
  | [], key, v => [(key, v)]
  | (k, w) :: rest, key, v =>
      if k = key then (k, v) :: rest else (k, w) :: setKey rest key v

/-- JS `delete obj[k]`. -/
def eraseKey : List (String × Value) → String → List (String × Value)
  | [], _ => []
  | (k, w) :: rest, key => if k = key then rest else (k, w) :: eraseKey rest key

/-- The keys of a field list, in order. -/
def keysF (fs : List (String × Value)) : List String := fs.map Prod.fst

/-- A decimal digit character. -/
def charDigit (c : Char) : Bool := 48 ≤ c.toNat && c.toNat ≤ 57

/-- The numeric value of a list of decimal digit characters. -/
def digitsVal (cs : List Char) : Nat :=
  cs.foldl (fun n c => n * 10 + (c.toNat - 48)) 0

/-- A string that is a canonical decimal numeral (a JS array index):
nonempty, all decimal digits, and without a leading zero unless it is
exactly "0". -/
def natKey? (s : String) : Option Nat :=
  match s.data with
  | [] => none
  | c :: cs =>
      if (c :: cs).all charDigit && (c.toNat ≠ 48 || cs.isEmpty) then
        some (digitsVal (c :: cs))
      else none

/-- `Object.keys(v)` for an arbitrary value: objects list their own keys,
arrays and strings their index keys, Timestamps and sentinels the own
enumerable fields set by their constructors; primitives have none. -/
def keysOf : Value → List String
  | vobj fs => keysF fs
  | varr xs => (List.range xs.length).map toString
  | vstr s => (List.range s.length).map toString
  | vts _ _ => ["seconds", "nanoseconds"]
  | vdel => ["_methodName"]
  | vstamp => ["_methodName"]
  | _ => []

/-- `v[k]` for an arbitrary value (own data properties only; inherited
prototype members are functions, not data values, and are modelled as
absent; `null[k]` would throw in JS and is only reached in the source
behind a `?? {}` guard, so it is modelled as absent). -/
def getProp : Value → String → Option Value
  | vobj fs, k => lookupF fs k
  | varr xs, k =>
      if k = "length" then some (vint xs.length)
      else match natKey? k with
           | some i => xs.get? i
           | none => none
  | vstr s, k =>
      if k = "length" then some (vint s.length)
      else match natKey? k with
           | some i => (s.data.get? i).map fun c => vstr (String.mk [c])
           | none => none
  | vts sec ns, k =>
      if k = "seconds" then some (vint sec)
      else if k = "nanoseconds" then some (vint ns)
      else none
  | vdel, k => if k = "_methodName" then some (vstr "deleteField") else none
  | vstamp, k => if k = "_methodName" then some (vstr "serverTimestamp") else none
  | _, _ => none

/-- `isPlainObject` from the source: not null, of object type, not an
array, not a Timestamp, and with `Object.prototype` as prototype (which
excludes the FieldValue sentinels). -/
def isPlainObject : Value → Bool
  | vobj _ => true
  | _ => false

mutual

/-- `isDeepEqual` from the source.  Primitives compare by value (the
`a === b` shortcut), arrays element-wise, Timestamps by `isEqual`
(seconds and nanoseconds), plain objects by key count plus per-key
recursion; everything else falls through to false.  Two sentinel
instances are distinct JS objects, so they fall through to false. -/
def isDeepEqual : Value → Value → Bool
  | vnull, vnull => true
  | vbool a, vbool b => a = b
  | vint a, vint b => a = b
  | vstr a, vstr b => a = b
  | vts s1 n1, vts s2 n2 => s1 = s2 && n1 = n2
  | varr xs, varr ys => xs.length = ys.length && deepEqL xs ys
  | vobj fs, vobj gs => fs.length = gs.length && deepEqF fs gs
  | _, _ => false

def deepEqL : List Value → List Value → Bool
  | [], [] => true
  | x :: xs, y :: ys => isDeepEqual x y && deepEqL xs ys
  | _, _ => false

/-- `keysA.every (key => isDeepEqual (a[key], b[key]))`: each key of the
first object must be present in the second with a deep-equal value. -/
def deepEqF : List (String × Value) → List (String × Value) → Bool
  | [], _ => true
  | (k, v) :: fs, gs =>
      (match lookupF gs k with
       | some w => isDeepEqual v w
       | none => false) && deepEqF fs gs

end

/-- `isDeepEqual(fromValue, toValue)` where `fromValue` may be undefined
(an absent property): undefined never deep-equals a present value. -/
def deepEqOpt : Option Value → Value → Bool
  | some v, w => isDeepEqual v w
  | none, _ => false

/-- JS strict equality `===` on the values that reach computeDiff's
primitive branch.  Value equality on primitives; Timestamps and the
sentinels are objects compared by reference, modelled structurally (see
the header note); values of different types are never strictly equal. -/
def jsStrictEq : Value → Value → Bool
  | vnull, vnull => true
  | vbool a, vbool b => a = b
  | vint a, vint b => a = b
  | vstr a, vstr b => a = b
  | vts s1 n1, vts s2 n2 => s1 = s2 && n1 = n2
  | _, _ => false

/-- `fromValue !== toValue` with a possibly-undefined `fromValue`,
negated: `jsStrictEqOpt none v = false` since undefined equals nothing
present. -/
def jsStrictEqOpt : Option Value → Value → Bool
  | some v, w => jsStrictEq v w
  | none, _ => false

mutual

/-- `deepClone` from the source: primitives returned as-is, Timestamps
rebuilt from their fields, arrays and plain objects cloned recursively.
A sentinel does not match the Timestamp or array branches and is cloned
through the generic object branch, yielding a plain object holding the
sentinel's own `_methodName` field (no caller clones sentinels). -/
def deepClone : Value → Value
  | vnull => vnull
  | vbool b => vbool b
  | vint n => vint n
  | vstr s => vstr s
  | vts sec ns => vts sec ns
  | vdel => vobj [("_methodName", vstr "deleteField")]
  | vstamp => vobj [("_methodName", vstr "serverTimestamp")]
  | varr xs => varr (deepCloneL xs)
  | vobj fs => vobj (deepCloneF fs)

def deepCloneL : List Value → List Value
  | [] => []
  | x :: xs => deepClone x :: deepCloneL xs

def deepCloneF : List (String × Value) → List (String × Value)
  | [] => []
  | (k, v) :: fs => (k, deepClone v) :: deepCloneF fs

end

/-- `(fromValue as Record<string, unknown>) ?? {}` — the `from` argument
of the nested computeDiff call: null and undefined collapse to the empty
object, everything else is passed through. -/
def defaultFrom : Option Value → Value
  | none => vobj []
  | some vnull => vobj []
  | some v => v

/-- The removed-fields loop of computeDiff: for every key of `from`, if
`to[key]` is undefined or null, write a deleteField sentinel into the
diff (overwriting a null written by the first loop). -/
def cdLoop2 (tfs : List (String × Value)) :
    List String → List (String × Value) → List (String × Value)
  | [], d => d
  | k :: ks, d =>
      match lookupF tfs k with
      | none => cdLoop2 tfs ks (setKey d k vdel)
      | some .vnull => cdLoop2 tfs ks (setKey d k vdel)
      | some _ => cdLoop2 tfs ks d

mutual

/-- The changed-or-added loop of `computeDiff(from, to)`, iterating the
keys of `to` in order: arrays are included wholesale when not deep-equal,
nested plain objects produce a recursive diff included only when
non-empty, everything else is included when not strictly equal to
`from[key]`. -/
def cdLoop1 (frm : Value) : List (String × Value) → List (String × Value)
  | [] => []
  | (k, .varr xs) :: rest =>
      if deepEqOpt (getProp frm k) (varr xs) then cdLoop1 frm rest
      else (k, varr xs) :: cdLoop1 frm rest
  | (k, .vobj gfs) :: rest =>
      if deepEqOpt (getProp frm k) (vobj gfs) then cdLoop1 frm rest
      else if (computeDiffF (defaultFrom (getProp frm k)) gfs).isEmpty then
        cdLoop1 frm rest
      else
        (k, vobj (computeDiffF (defaultFrom (getProp frm k)) gfs))
          :: cdLoop1 frm rest
  | (k, tv) :: rest =>
      if jsStrictEqOpt (getProp frm k) tv then cdLoop1 frm rest
      else (k, tv) :: cdLoop1 frm rest
termination_by l => (sizeOf l, 0)
decreasing_by all_goals (simp_wf; first
  | (apply Prod.Lex.left; omega)
  | (apply Prod.Lex.right; omega))

/-- `computeDiff(from, to)` for a present object `to`, as the field list
of the resulting diff: the changed-fields loop followed by the
removed-fields loop over `Object.keys(from)`. -/
def computeDiffF (frm : Value) (tfs : List (String × Value)) :
    List (String × Value) :=
  cdLoop2 tfs (keysOf frm) (cdLoop1 frm tfs)
termination_by (sizeOf tfs, 1)
decreasing_by all_goals (simp_wf; first
  | (apply Prod.Lex.left; omega)
  | (apply Prod.Lex.right; omega))

end

/-- Top-level `computeDiff(from, to)` on two objects (the only way the
source calls it with a present `to`). -/
def computeDiff (frm tfs : List (String × Value)) : List (String × Value) :=
  computeDiffF (vobj frm) tfs

/-- `applyDiffMutable(target, diff)`, as a pure function on the target's
field list; `now` is the Timestamp.now() value substituted for a
serverTimestamp sentinel.  Diff entries are processed in order: a
deleteField sentinel removes the key, a serverTimestamp sentinel writes
`now`, a nested plain object merges into the existing value when that is
a plain object and into a fresh empty object otherwise, everything else
(arrays, Timestamps, primitives, null) overwrites. -/
def applyDiffF (now : Int × Int) :
    List (String × Value) → List (String × Value) → List (String × Value)
  | tgt, [] => tgt
  | tgt, (k, .vdel) :: rest => applyDiffF now (eraseKey tgt k) rest
  | tgt, (k, .vstamp) :: rest =>
      applyDiffF now (setKey tgt k (vts now.1 now.2)) rest
  | tgt, (k, .vobj dfs) :: rest =>
      let inner := match lookupF tgt k with
                   | some (vobj fs) => fs
                   | _ => []
      applyDiffF now (setKey tgt k (vobj (applyDiffF now inner dfs))) rest
  | tgt, (k, v) :: rest => applyDiffF now (setKey tgt k v) rest
termination_by tgt d => sizeOf d
decreasing_by all_goals simp_wf <;> omega

/-- `applyDiff(state, diff)`: deep-clone the state, then apply the diff
to the clone. -/
def applyDiff (now : Int × Int) (state diff : List (String × Value)) :
    List (String × Value) :=
  applyDiffF now (deepCloneF state) diff

/-- `computeUndoDiff(startState, diff) = computeDiff(applyDiff(startState,
diff), startState)`. -/
def computeUndoDiff (now : Int × Int) (startState diff : List (String × Value)) :
    List (String × Value) :=
  computeDiff (applyDiff now startState diff) startState

/-- `isDiffEmpty`. -/
def isDiffEmpty (d : List (String × Value)) : Bool := d.isEmpty

/-! ### Well-formedness predicates used as hypotheses of the algebraic laws -/

/-- A list of keys without duplicates (JS object keys are always
duplicate-free; this is the well-formedness condition of the
association-list model). -/
def dupFree : List String → Bool
  | [] => true
  | k :: ks => !(ks.contains k) && dupFree ks

mutual

/-- Sentinel-free: the value contains no deleteField or serverTimestamp
sentinel (true of every state delivered by or written to the store). -/
def sfV : Value → Bool
  | vdel => false
  | vstamp => false
  | varr xs => sfL xs
  | vobj fs => sfF fs
  | _ => true

def sfL : List Value → Bool
  | [] => true
  | x :: xs => sfV x && sfL xs

def sfF : List (String × Value) → Bool
  | [] => true
  | (_, v) :: fs => sfV v && sfF fs

end

mutual

/-- Every object in the value (hereditarily, through arrays and objects)
has duplicate-free keys. -/
def ndV : Value → Bool
  | varr xs => ndL xs
  | vobj fs => dupFree (keysF fs) && ndF fs
  | _ => true

def ndL : List Value → Bool
  | [] => true
  | x :: xs => ndV x && ndL xs

def ndF : List (String × Value) → Bool
  | [] => true
  | (_, v) :: fs => ndV v && ndF fs

end

/-- A key that no non-object JS value answers to: not a canonical array
index, and none of length, seconds, nanoseconds, _methodName. -/
def safeKey (k : String) : Bool :=
  (natKey? k).isNone &&
  !((["length", "seconds", "nanoseconds", "_methodName"] : List String).contains k)

mutual

/-- All object keys (hereditarily through object fields) are safe. -/
def skV : Value → Bool
  | vobj fs => (keysF fs).all safeKey && skF fs
  | _ => true

def skF : List (String × Value) → Bool
  | [] => true
  | (_, v) :: fs => skV v && skF fs

end

mutual

/-- No object field (hereditarily through object fields) holds null. -/
def nnV : Value → Bool
  | vobj fs => nnF fs
  | _ => true

def nnF : List (String × Value) → Bool
  | [] => true
  | (_, vnull) :: _ => false
  | (_, v) :: fs => nnV v && nnF fs

end

mutual

/-- No object field (hereditarily through object fields) holds an empty
object. -/
def neoV : Value → Bool
  | vobj fs => neoF fs
  | _ => true

def neoF : List (String × Value) → Bool
  | [] => true
  | (_, vobj []) :: _ => false
  | (_, v) :: fs => neoV v && neoF fs

end

/-! ### Basic lemmas about the association-list object model -/

@[simp] theorem keysF_nil : keysF ([] : List (String × Value)) = [] := rfl

@[simp] theorem keysF_cons {kv : String × Value} {fs : List (String × Value)} :
    keysF (kv :: fs) = kv.1 :: keysF fs := rfl

theorem containsIffMem {ks : List String} {k : String} :
    ks.contains k = true ↔ k ∈ ks := List.elem_iff

theorem dupFree_cons_iff {k : String} {ks : List String} :
    dupFree (k :: ks) = true ↔ k ∉ ks ∧ dupFree ks = true := by
  simp [dupFree, containsIffMem]

theorem dupFree_iff_nodup {ks : List String} :
    dupFree ks = true ↔ ks.Nodup := by
  induction ks with
  | nil => simp [dupFree]
  | cons k ks ih => simp [dupFree_cons_iff, ih]

theorem mem_keysF_of_mem {fs : List (String × Value)} {k : String} {v : Value}
    (h : (k, v) ∈ fs) : k ∈ keysF fs := by
  induction fs with
  | nil => simp at h
  | cons kv rest ih =>
    rcases List.mem_cons.mp h with h1 | h1
    · simp [← h1]
    · simp [ih h1]

theorem lookupF_isSome_iff_mem {fs : List (String × Value)} {k : String} :
    (lookupF fs k).isSome ↔ k ∈ keysF fs := by
  induction fs with
  | nil => simp [lookupF]
  | cons kv rest ih =>
    obtain ⟨k', v⟩ := kv
    by_cases h : k' = k
    · subst h; simp [lookupF]
    · simp [lookupF, h, ih, Ne.symm h]

theorem lookupF_eq_none_iff {fs : List (String × Value)} {k : String} :
    lookupF fs k = none ↔ k ∉ keysF fs := by
  rw [← lookupF_isSome_iff_mem]
  cases lookupF fs k <;> simp

theorem mem_of_lookupF_eq_some {fs : List (String × Value)} {k : String}
    {v : Value} (h : lookupF fs k = some v) : (k, v) ∈ fs := by
  induction fs with
  | nil => simp [lookupF] at h
  | cons kv rest ih =>
    obtain ⟨k', w⟩ := kv
    by_cases hk : k' = k
    · subst hk
      simp [lookupF] at h
      simp [h]
    · simp [lookupF, hk] at h
      simp [ih h]

theorem lookupF_eq_some_of_mem {fs : List (String × Value)} {k : String}
    {v : Value} (hnd : dupFree (keysF fs) = true) (h : (k, v) ∈ fs) :
    lookupF fs k = some v := by
  induction fs with
  | nil => simp at h
  | cons kv rest ih =>
    obtain ⟨k', w⟩ := kv
    have hnd2 := dupFree_cons_iff.mp (by simpa using hnd)
    rcases List.mem_cons.mp h with h1 | h1
    · obtain ⟨h1a, h1b⟩ : k = k' ∧ v = w := by simpa using h1
      subst h1a; subst h1b; simp [lookupF]
    · have hk : k' ≠ k := fun e => hnd2.1 (e ▸ mem_keysF_of_mem h1)
      simpa [lookupF, hk] using ih hnd2.2 h1

theorem lookupF_setKey_self {fs : List (String × Value)} {k : String}
    {v : Value} : lookupF (setKey fs k v) k = some v := by
  induction fs with
  | nil => simp [setKey, lookupF]
  | cons kv rest ih =>
    obtain ⟨k', w⟩ := kv
    by_cases h : k' = k <;> simp [setKey, lookupF, h, ih]

theorem lookupF_setKey_ne {fs : List (String × Value)} {k k' : String}
    {v : Value} (h : k' ≠ k) : lookupF (setKey fs k v) k' = lookupF fs k' := by
  induction fs with
  | nil => simp [setKey, lookupF, Ne.symm h]
  | cons kv rest ih =>
    obtain ⟨k'', w⟩ := kv
    by_cases h2 : k'' = k
    · subst h2; simp [setKey, lookupF, Ne.symm h]
    · by_cases h3 : k'' = k' <;> simp [setKey, lookupF, h2, h3, h, ih]

theorem mem_keysF_setKey {fs : List (String × Value)} {k k' : String}
    {v : Value} : k' ∈ keysF (setKey fs k v) ↔ k' ∈ keysF fs ∨ k' = k := by
  induction fs with
  | nil => simp [setKey, eq_comm]
  | cons kv rest ih =>
    obtain ⟨k'', w⟩ := kv
    by_cases h : k'' = k
    · subst h
      simp [setKey]
      tauto
    · simp [setKey, h, ih]
      tauto

theorem dupFree_keysF_setKey {fs : List (String × Value)} {k : String}
    {v : Value} (h : dupFree (keysF fs) = true) :
    dupFree (keysF (setKey fs k v)) = true := by
  induction fs with
  | nil => simp [setKey, dupFree]
  | cons kv rest ih =>
    obtain ⟨k'', w⟩ := kv
    have h2 := dupFree_cons_iff.mp (by simpa using h)
    by_cases hk : k'' = k
    · subst hk
      simpa [setKey, dupFree_cons_iff] using h2
    · simp only [setKey, if_neg hk, keysF_cons, dupFree_cons_iff]
      refine ⟨?_, ih h2.2⟩
      rw [mem_keysF_setKey]
      rintro (hc | hc)
      · exact h2.1 hc
      · exact hk hc

theorem lookupF_eraseKey_ne {fs : List (String × Value)} {k k' : String}
    (h : k' ≠ k) : lookupF (eraseKey fs k) k' = lookupF fs k' := by
  induction fs with
  | nil => simp [eraseKey]
  | cons kv rest ih =>
    obtain ⟨k'', w⟩ := kv
    by_cases h2 : k'' = k
    · subst h2; simp [eraseKey, lookupF, Ne.symm h]
    · by_cases h3 : k'' = k' <;> simp [eraseKey, lookupF, h2, h3, h, ih]

theorem mem_keysF_eraseKey {fs : List (String × Value)} {k k' : String}
    (h : k' ∈ keysF (eraseKey fs k)) : k' ∈ keysF fs := by
  induction fs with
  | nil => simp [eraseKey] at h
  | cons kv rest ih =>
    obtain ⟨k'', w⟩ := kv
    by_cases h2 : k'' = k
    · subst h2; simp [eraseKey] at h; simp [h]
    · simp [eraseKey, h2] at h ⊢
      rcases h with h | h
      · exact Or.inl h
      · exact Or.inr (ih h)

theorem lookupF_eraseKey_self {fs : List (String × Value)} {k : String}
    (hnd : dupFree (keysF fs) = true) : lookupF (eraseKey fs k) k = none := by
  induction fs with
  | nil => simp [eraseKey, lookupF]
  | cons kv rest ih =>
    obtain ⟨k'', w⟩ := kv
    have h2 := dupFree_cons_iff.mp (by simpa using hnd)
    by_cases hk : k'' = k
    · subst hk
      simp [eraseKey, lookupF_eq_none_iff]
      exact h2.1
    · simp [eraseKey, lookupF, hk, ih h2.2]

theorem dupFree_keysF_eraseKey {fs : List (String × Value)} {k : String}
    (h : dupFree (keysF fs) = true) :
    dupFree (keysF (eraseKey fs k)) = true := by
  induction fs with
  | nil => simp [eraseKey, dupFree]
  | cons kv rest ih =>
    obtain ⟨k'', w⟩ := kv
    have h2 := dupFree_cons_iff.mp (by simpa using h)
    by_cases hk : k'' = k
    · subst hk; simpa [eraseKey, dupFree_iff_nodup] using
        dupFree_iff_nodup.mp h2.2
    · simp [eraseKey, hk, dupFree_cons_iff, ih h2.2]
      exact fun hc => h2.1 (mem_keysF_eraseKey hc)

/-- The per-key characterization of `deepEqF`. -/
theorem deepEqF_eq_true_iff {fs gs : List (String × Value)} :
    deepEqF fs gs = true ↔
      ∀ kv ∈ fs, ∃ w, lookupF gs kv.1 = some w ∧ isDeepEqual kv.2 w = true := by
  induction fs with
  | nil => simp [deepEqF]
  | cons kv rest ih =>
    obtain ⟨k, v⟩ := kv
    cases hl : lookupF gs k with
    | none =>
      simp only [deepEqF, hl, Bool.false_and]
      constructor
      · intro h; simp at h
      · intro h
        obtain ⟨w, hw, _⟩ := h (k, v) (List.mem_cons_self _ _)
        rw [hl] at hw
        cases hw
    | some w0 =>
      simp only [deepEqF, hl, ih, Bool.and_eq_true]
      constructor
      · rintro ⟨h1, h2⟩ kv hmem
        rcases List.mem_cons.mp hmem with h | h
        · subst h
          exact ⟨w0, hl, h1⟩
        · exact h2 kv h
      · intro h
        refine ⟨?_, fun kv hkv => h kv (List.mem_cons_of_mem _ hkv)⟩
        obtain ⟨w, hw, he⟩ := h (k, v) (List.mem_cons_self _ _)
        rw [hl] at hw
        obtain rfl : w0 = w := by injection hw
        exact he

/-- Extensional criterion for object deep-equality: same key sets
(duplicate-free on both sides) and deep-equal values at every common
key. -/
theorem isDeepEqual_vobj_of_ext {fs gs : List (String × Value)}
    (hf : dupFree (keysF fs) = true) (hg : dupFree (keysF gs) = true)
    (hmem : ∀ k, k ∈ keysF fs ↔ k ∈ keysF gs)
    (hval : ∀ k v w, lookupF fs k = some v → lookupF gs k = some w →
      isDeepEqual v w = true) :
    isDeepEqual (vobj fs) (vobj gs) = true := by
  have hperm : (keysF fs).Perm (keysF gs) :=
    (List.perm_ext_iff_of_nodup (dupFree_iff_nodup.mp hf)
      (dupFree_iff_nodup.mp hg)).mpr hmem
  have hlen : fs.length = gs.length := by
    have := hperm.length_eq
    simpa [keysF] using this
  simp only [isDeepEqual, Bool.and_eq_true, decide_eq_true_eq]
  refine ⟨hlen, deepEqF_eq_true_iff.mpr ?_⟩
  rintro ⟨k, v⟩ hkv
  have hl : lookupF fs k = some v := lookupF_eq_some_of_mem hf hkv
  have hmemk : k ∈ keysF gs := (hmem k).mp (mem_keysF_of_mem hkv)
  have hsome : (lookupF gs k).isSome := lookupF_isSome_iff_mem.mpr hmemk
  cases hw : lookupF gs k with
  | none => simp [hw] at hsome
  | some w => exact ⟨w, rfl, hval k v w hl hw⟩

/-! ### Structural induction over values (nested through lists) -/

/-- Member-wise induction principle for `Value`. -/
theorem inductionOn {P : Value → Prop}
    (hnull : P vnull) (hbool : ∀ b, P (vbool b)) (hint : ∀ n, P (vint n))
    (hstr : ∀ s, P (vstr s)) (hts : ∀ a b, P (vts a b))
    (hdel : P vdel) (hstamp : P vstamp)
    (harr : ∀ xs, (∀ x ∈ xs, P x) → P (varr xs))
    (hobj : ∀ fs, (∀ kv ∈ fs, P kv.2) → P (vobj fs)) : ∀ v, P v
  | vnull => hnull
  | vbool b => hbool b
  | vint n => hint n
  | vstr s => hstr s
  | vts a b => hts a b
  | vdel => hdel
  | vstamp => hstamp
  | varr xs =>
      harr xs (fun x hx =>
        inductionOn hnull hbool hint hstr hts hdel hstamp harr hobj x)
  | vobj fs =>
      hobj fs (fun kv hkv =>
        inductionOn hnull hbool hint hstr hts hdel hstamp harr hobj kv.2)
termination_by v => sizeOf v
decreasing_by
  · have := List.sizeOf_lt_of_mem hx
    simp only [Value.varr.sizeOf_spec]
    omega
  · have h1 := List.sizeOf_lt_of_mem hkv
    obtain ⟨k, v⟩ := kv
    simp only [Value.vobj.sizeOf_spec, Prod.mk.sizeOf_spec] at *
    omega

/-! ### Membership lemmas for the hereditary predicates -/

theorem sfL_mem {xs : List Value} (h : sfL xs = true) {x : Value}
    (hx : x ∈ xs) : sfV x = true := by
  induction xs with
  | nil => simp at hx
  | cons y ys ih =>
    simp only [sfL, Bool.and_eq_true] at h
    rcases List.mem_cons.mp hx with rfl | hx
    · exact h.1
    · exact ih h.2 hx

theorem sfF_mem {fs : List (String × Value)} (h : sfF fs = true)
    {k : String} {v : Value} (hv : (k, v) ∈ fs) : sfV v = true := by
  induction fs with
  | nil => simp at hv
  | cons kv rest ih =>
    obtain ⟨k', w⟩ := kv
    simp only [sfF, Bool.and_eq_true] at h
    rcases List.mem_cons.mp hv with he | hv
    · obtain ⟨rfl, rfl⟩ : k = k' ∧ v = w := by simpa using he
      exact h.1
    · exact ih h.2 hv

theorem ndL_mem {xs : List Value} (h : ndL xs = true) {x : Value}
    (hx : x ∈ xs) : ndV x = true := by
  induction xs with
  | nil => simp at hx
  | cons y ys ih =>
    simp only [ndL, Bool.and_eq_true] at h
    rcases List.mem_cons.mp hx with rfl | hx
    · exact h.1
    · exact ih h.2 hx

theorem ndF_mem {fs : List (String × Value)} (h : ndF fs = true)
    {k : String} {v : Value} (hv : (k, v) ∈ fs) : ndV v = true := by
  induction fs with
  | nil => simp at hv
  | cons kv rest ih =>
    obtain ⟨k', w⟩ := kv
    simp only [ndF, Bool.and_eq_true] at h
    rcases List.mem_cons.mp hv with he | hv
    · obtain ⟨rfl, rfl⟩ : k = k' ∧ v = w := by simpa using he
      exact h.1
    · exact ih h.2 hv

theorem sfF_mem' {fs : List (String × Value)} (h : sfF fs = true)
    {kv : String × Value} (hkv : kv ∈ fs) : sfV kv.2 = true := by
  obtain ⟨k, v⟩ := kv
  exact sfF_mem h hkv

theorem skF_mem {fs : List (String × Value)} (h : skF fs = true)
    {k : String} {v : Value} (hv : (k, v) ∈ fs) : skV v = true := by
  induction fs with
  | nil => simp at hv
  | cons kv rest ih =>
    obtain ⟨k', w⟩ := kv
    simp only [skF, Bool.and_eq_true] at h
    rcases List.mem_cons.mp hv with he | hv
    · obtain ⟨rfl, rfl⟩ : k = k' ∧ v = w := by simpa using he
      exact h.1
    · exact ih h.2 hv

theorem nnF_cons {k : String} {w : Value} {rest : List (String × Value)}
    (h : nnF ((k, w) :: rest) = true) :
    w ≠ vnull ∧ nnV w = true ∧ nnF rest = true := by
  cases w <;> simp_all [nnF, nnV]

theorem nnF_mem {fs : List (String × Value)} (h : nnF fs = true)
    {k : String} {v : Value} (hv : (k, v) ∈ fs) :
    v ≠ vnull ∧ nnV v = true := by
  induction fs with
  | nil => simp at hv
  | cons kv rest ih =>
    obtain ⟨k', w⟩ := kv
    obtain ⟨h1, h2, h3⟩ := nnF_cons h
    rcases List.mem_cons.mp hv with he | hv
    · obtain ⟨rfl, rfl⟩ : k = k' ∧ v = w := by simpa using he
      exact ⟨h1, h2⟩
    · exact ih h3 hv

theorem neoF_cons {k : String} {w : Value} {rest : List (String × Value)}
    (h : neoF ((k, w) :: rest) = true) :
    w ≠ vobj [] ∧ neoV w = true ∧ neoF rest = true := by
  cases w with
  | vobj gs => cases gs <;> simp_all [neoF, neoV]
  | _ => simp_all [neoF, neoV]

theorem neoF_mem {fs : List (String × Value)} (h : neoF fs = true)
    {k : String} {v : Value} (hv : (k, v) ∈ fs) :
    v ≠ vobj [] ∧ neoV v = true := by
  induction fs with
  | nil => simp at hv
  | cons kv rest ih =>
    obtain ⟨k', w⟩ := kv
    obtain ⟨h1, h2, h3⟩ := neoF_cons h
    rcases List.mem_cons.mp hv with he | hv
    · obtain ⟨rfl, rfl⟩ : k = k' ∧ v = w := by simpa using he
      exact ⟨h1, h2⟩
    · exact ih h3 hv

theorem skV_vobj_keys {fs : List (String × Value)} (h : skV (vobj fs) = true)
    {k : String} (hk : k ∈ keysF fs) : safeKey k = true := by
  simp only [skV, Bool.and_eq_true] at h
  exact List.all_eq_true.mp h.1 k hk

/-! ### Reflexivity of deep equality on well-formed values -/

theorem jsStrictEq_to_deepEq {v w : Value} (h : jsStrictEq v w = true) :
    isDeepEqual v w = true := by
  cases v <;> cases w <;> simp_all [jsStrictEq, isDeepEqual]

theorem deepEqL_refl_of {ys : List Value}
    (h : ∀ y ∈ ys, isDeepEqual y y = true) : deepEqL ys ys = true := by
  induction ys with
  | nil => rfl
  | cons y ys ih =>
    simp only [deepEqL, Bool.and_eq_true]
    exact ⟨h y (List.mem_cons_self _ _),
      ih fun z hz => h z (List.mem_cons_of_mem _ hz)⟩

theorem deepEq_refl : ∀ v : Value, sfV v = true → ndV v = true →
    isDeepEqual v v = true := by
  intro v
  induction v using inductionOn with
  | hnull => intro _ _; rfl
  | hbool b => intro _ _; simp [isDeepEqual]
  | hint n => intro _ _; simp [isDeepEqual]
  | hstr s => intro _ _; simp [isDeepEqual]
  | hts a b => intro _ _; simp [isDeepEqual]
  | hdel => intro h _; simp [sfV] at h
  | hstamp => intro h _; simp [sfV] at h
  | harr xs ih =>
    intro hsf hnd
    simp only [isDeepEqual, Bool.and_eq_true, decide_eq_true_eq]
    refine ⟨trivial, deepEqL_refl_of fun y hy => ?_⟩
    exact ih y hy (sfL_mem (by simpa [sfV] using hsf) hy)
      (ndL_mem (by simpa [ndV] using hnd) hy)
  | hobj fs ih =>
    intro hsf hnd
    have hnd2 : dupFree (keysF fs) = true ∧ ndF fs = true := by
      simpa [ndV, Bool.and_eq_true] using hnd
    simp only [isDeepEqual, Bool.and_eq_true, decide_eq_true_eq]
    refine ⟨trivial, deepEqF_eq_true_iff.mpr ?_⟩
    rintro ⟨k, v⟩ hkv
    refine ⟨v, lookupF_eq_some_of_mem hnd2.1 hkv, ?_⟩
    exact ih (k, v) hkv (sfF_mem (by simpa [sfV] using hsf) hkv)
      (ndF_mem hnd2.2 hkv)

/-! ### deepClone is the identity on sentinel-free values -/

theorem deepCloneL_id_of {xs : List Value}
    (h : ∀ x ∈ xs, deepClone x = x) : deepCloneL xs = xs := by
  induction xs with
  | nil => rfl
  | cons y ys ih =>
    simp only [deepCloneL]
    rw [h y (List.mem_cons_self _ _), ih fun z hz => h z (List.mem_cons_of_mem _ hz)]

theorem deepCloneF_id_of {fs : List (String × Value)}
    (h : ∀ kv ∈ fs, deepClone kv.2 = kv.2) : deepCloneF fs = fs := by
  induction fs with
  | nil => rfl
  | cons kv rest ih =>
    obtain ⟨k, v⟩ := kv
    simp only [deepCloneF]
    rw [h (k, v) (List.mem_cons_self _ _),
      ih fun z hz => h z (List.mem_cons_of_mem _ hz)]

theorem deepClone_id : ∀ v : Value, sfV v = true → deepClone v = v := by
  intro v
  induction v using inductionOn with
  | hnull => intro _; rfl
  | hbool b => intro _; rfl
  | hint n => intro _; rfl
  | hstr s => intro _; rfl
  | hts a b => intro _; rfl
  | hdel => intro h; simp [sfV] at h
  | hstamp => intro h; simp [sfV] at h
  | harr xs ih =>
    intro hsf
    simp only [deepClone]
    rw [deepCloneL_id_of fun y hy => ih y hy (sfL_mem (by simpa [sfV] using hsf) hy)]
  | hobj fs ih =>
    intro hsf
    simp only [deepClone]
    rw [deepCloneF_id_of fun kv hkv =>
      ih kv hkv (sfF_mem' (by simpa [sfV] using hsf) hkv)]

theorem deepCloneF_id {fs : List (String × Value)} (h : sfF fs = true) :
    deepCloneF fs = fs :=
  deepCloneF_id_of fun kv hkv => deepClone_id kv.2 (sfF_mem' h hkv)

/-! ### Property access on non-objects at safe keys -/

theorem safeKey_spec {k : String} (h : safeKey k = true) :
    natKey? k = none ∧ k ≠ "length" ∧ k ≠ "seconds" ∧ k ≠ "nanoseconds" ∧
      k ≠ "_methodName" := by
  simp only [safeKey, Bool.and_eq_true, Bool.not_eq_true', Option.isNone_iff_eq_none] at h
  obtain ⟨h1, h2⟩ := h
  have h3 : k ∉ (["length", "seconds", "nanoseconds", "_methodName"] : List String) := by
    intro hc
    rw [(@containsIffMem ["length", "seconds", "nanoseconds", "_methodName"]
      k).mpr hc] at h2
    cases h2
  simp only [List.mem_cons, List.mem_singleton, not_or] at h3
  exact ⟨h1, h3.1, h3.2.1, h3.2.2.1, by simpa using h3.2.2.2⟩

theorem getProp_safe_none {w : Value} {k : String} (hs : safeKey k = true)
    (hw : isPlainObject w = false) : getProp w k = none := by
  obtain ⟨h1, h2, h3, h4, h5⟩ := safeKey_spec hs
  cases w with
  | vobj fs => simp [isPlainObject] at hw
  | varr xs => simp [getProp, h1, h2]
  | vstr s => simp [getProp, h1, h2]
  | vts a b => simp [getProp, h3, h4]
  | vdel => simp [getProp, h5]
  | vstamp => simp [getProp, h5]
  | _ => rfl

/-! ### Small structural facts about the diff constructors -/

theorem setKey_ne_nil {fs : List (String × Value)} {k : String} {v : Value} :
    setKey fs k v ≠ [] := by
  cases fs with
  | nil => simp [setKey]
  | cons kv rest =>
    obtain ⟨k', w⟩ := kv
    by_cases h : k' = k <;> simp [setKey, h]

theorem cdLoop2_ne_nil {tfs d : List (String × Value)} {ks : List String}
    (h : d ≠ []) : cdLoop2 tfs ks d ≠ [] := by
  induction ks generalizing d with
  | nil => simpa [cdLoop2] using h
  | cons k ks ih =>
    rw [cdLoop2]
    cases hl : lookupF tfs k with
    | none => exact ih setKey_ne_nil
    | some v => cases v <;> first
        | exact ih setKey_ne_nil
        | exact ih h

/-! ### Lookup characterization of applyDiff -/

/-- The object field list a nested diff merges into: the fields of an
existing plain object at the key, and an empty object otherwise. -/
def innerOf : Option Value → List (String × Value)
  | some (vobj fs) => fs
  | _ => []

/-- The value a single diff entry leaves at its key when applied. -/
def diffResultAt (now : Int × Int) (tgtAt : Option Value) : Value → Option Value
  | vdel => none
  | vstamp => some (vts now.1 now.2)
  | vobj dfs => some (vobj (applyDiffF now (innerOf tgtAt) dfs))
  | v => some v

theorem applyDiffF_dupFree {now : Int × Int} {d : List (String × Value)} :
    ∀ {tgt : List (String × Value)}, dupFree (keysF tgt) = true →
      dupFree (keysF (applyDiffF now tgt d)) = true := by
  induction d with
  | nil => intro tgt h; simpa [applyDiffF] using h
  | cons kv rest ih =>
    intro tgt h
    obtain ⟨k, v⟩ := kv
    cases v with
    | vdel => simp only [applyDiffF]; exact ih (dupFree_keysF_eraseKey h)
    | vstamp => simp only [applyDiffF]; exact ih (dupFree_keysF_setKey h)
    | vobj dfs => simp only [applyDiffF]; exact ih (dupFree_keysF_setKey h)
    | _ => simp only [applyDiffF]; exact ih (dupFree_keysF_setKey h)

theorem lookupF_applyDiffF {now : Int × Int} {d : List (String × Value)}
    (hd : dupFree (keysF d) = true) :
    ∀ {tgt : List (String × Value)}, dupFree (keysF tgt) = true →
    ∀ k, lookupF (applyDiffF now tgt d) k =
      match lookupF d k with
      | none => lookupF tgt k
      | some v => diffResultAt now (lookupF tgt k) v := by
  induction d with
  | nil => intro tgt _ k; simp [applyDiffF, lookupF]
  | cons kv rest ih =>
    intro tgt htgt k
    obtain ⟨k0, v0⟩ := kv
    have hd2 := dupFree_cons_iff.mp (by simpa using hd)
    by_cases hk : k = k0
    · subst hk
      have hrest : lookupF rest k = none := lookupF_eq_none_iff.mpr hd2.1
      cases v0 with
      | vdel =>
        simp only [applyDiffF]; rw [ih hd2.2 (dupFree_keysF_eraseKey htgt), hrest]
        simp [lookupF, diffResultAt, lookupF_eraseKey_self htgt]
      | vstamp =>
        simp only [applyDiffF]; rw [ih hd2.2 (dupFree_keysF_setKey htgt), hrest]
        simp [lookupF, diffResultAt, lookupF_setKey_self]
      | vobj dfs =>
        simp only [applyDiffF]; rw [ih hd2.2 (dupFree_keysF_setKey htgt), hrest]
        simp [lookupF, diffResultAt, lookupF_setKey_self, innerOf]
      | vnull =>
        simp only [applyDiffF]; rw [ih hd2.2 (dupFree_keysF_setKey htgt), hrest]
        simp [lookupF, diffResultAt, lookupF_setKey_self]
      | vbool b =>
        simp only [applyDiffF]; rw [ih hd2.2 (dupFree_keysF_setKey htgt), hrest]
        simp [lookupF, diffResultAt, lookupF_setKey_self]
      | vint n =>
        simp only [applyDiffF]; rw [ih hd2.2 (dupFree_keysF_setKey htgt), hrest]
        simp [lookupF, diffResultAt, lookupF_setKey_self]
      | vstr s =>
        simp only [applyDiffF]; rw [ih hd2.2 (dupFree_keysF_setKey htgt), hrest]
        simp [lookupF, diffResultAt, lookupF_setKey_self]
      | vts a b =>
        simp only [applyDiffF]; rw [ih hd2.2 (dupFree_keysF_setKey htgt), hrest]
        simp [lookupF, diffResultAt, lookupF_setKey_self]
      | varr xs =>
        simp only [applyDiffF]; rw [ih hd2.2 (dupFree_keysF_setKey htgt), hrest]
        simp [lookupF, diffResultAt, lookupF_setKey_self]
    · have hcons : lookupF ((k0, v0) :: rest) k = lookupF rest k := by
        simp [lookupF, Ne.symm hk]
      cases v0 with
      | vdel =>
        simp only [applyDiffF]; rw [ih hd2.2 (dupFree_keysF_eraseKey htgt), hcons,
          lookupF_eraseKey_ne hk]
      | vstamp =>
        simp only [applyDiffF]; rw [ih hd2.2 (dupFree_keysF_setKey htgt), hcons,
          lookupF_setKey_ne hk]
      | vobj dfs =>
        simp only [applyDiffF]; rw [ih hd2.2 (dupFree_keysF_setKey htgt), hcons,
          lookupF_setKey_ne hk]
      | vnull =>
        simp only [applyDiffF]; rw [ih hd2.2 (dupFree_keysF_setKey htgt), hcons,
          lookupF_setKey_ne hk]
      | vbool b =>
        simp only [applyDiffF]; rw [ih hd2.2 (dupFree_keysF_setKey htgt), hcons,
          lookupF_setKey_ne hk]
      | vint n =>
        simp only [applyDiffF]; rw [ih hd2.2 (dupFree_keysF_setKey htgt), hcons,
          lookupF_setKey_ne hk]
      | vstr s =>
        simp only [applyDiffF]; rw [ih hd2.2 (dupFree_keysF_setKey htgt), hcons,
          lookupF_setKey_ne hk]
      | vts a b =>
        simp only [applyDiffF]; rw [ih hd2.2 (dupFree_keysF_setKey htgt), hcons,
          lookupF_setKey_ne hk]
      | varr xs =>
        simp only [applyDiffF]; rw [ih hd2.2 (dupFree_keysF_setKey htgt), hcons,
          lookupF_setKey_ne hk]

/-! ### Lookup characterization of computeDiff -/

/-- The condition of computeDiff's removed-fields loop:
`to[key] === undefined || to[key] === null`. -/
def delCond (tfs : List (String × Value)) (k : String) : Bool :=
  match lookupF tfs k with
  | none => true
  | some vnull => true
  | some _ => false

/-- The entry computeDiff's first loop produces for one key of `to`
(`none` when the key is skipped). -/
def cdEntry (w : Value) (k : String) : Value → Option Value
  | varr xs => if deepEqOpt (getProp w k) (varr xs) then none else some (varr xs)
  | vobj gvf =>
      if deepEqOpt (getProp w k) (vobj gvf) then none
      else if (computeDiffF (defaultFrom (getProp w k)) gvf).isEmpty then none
      else some (vobj (computeDiffF (defaultFrom (getProp w k)) gvf))
  | gv => if jsStrictEqOpt (getProp w k) gv then none else some gv

theorem cdLoop1_cons (w : Value) (k0 : String) (gv0 : Value)
    (rest : List (String × Value)) :
    cdLoop1 w ((k0, gv0) :: rest) =
      match cdEntry w k0 gv0 with
      | none => cdLoop1 w rest
      | some e => (k0, e) :: cdLoop1 w rest := by
  cases gv0 with
  | varr xs =>
    by_cases hc : deepEqOpt (getProp w k0) (varr xs) = true <;>
      simp [cdLoop1, cdEntry, hc]
  | vobj gvf =>
    by_cases hg : deepEqOpt (getProp w k0) (vobj gvf) = true
    · simp [cdLoop1, cdEntry, hg]
    · by_cases he : (computeDiffF (defaultFrom (getProp w k0)) gvf).isEmpty = true <;>
        simp [cdLoop1, cdEntry, hg, he]
  | vnull =>
    by_cases hc : jsStrictEqOpt (getProp w k0) vnull = true <;>
      simp [cdLoop1, cdEntry, hc]
  | vbool b =>
    by_cases hc : jsStrictEqOpt (getProp w k0) (vbool b) = true <;>
      simp [cdLoop1, cdEntry, hc]
  | vint n =>
    by_cases hc : jsStrictEqOpt (getProp w k0) (vint n) = true <;>
      simp [cdLoop1, cdEntry, hc]
  | vstr s =>
    by_cases hc : jsStrictEqOpt (getProp w k0) (vstr s) = true <;>
      simp [cdLoop1, cdEntry, hc]
  | vts a b =>
    by_cases hc : jsStrictEqOpt (getProp w k0) (vts a b) = true <;>
      simp [cdLoop1, cdEntry, hc]
  | vdel =>
    by_cases hc : jsStrictEqOpt (getProp w k0) vdel = true <;>
      simp [cdLoop1, cdEntry, hc]
  | vstamp =>
    by_cases hc : jsStrictEqOpt (getProp w k0) vstamp = true <;>
      simp [cdLoop1, cdEntry, hc]

theorem mem_keysF_cdLoop1 {w : Value} {gfs : List (String × Value)}
    {k : String} (h : k ∈ keysF (cdLoop1 w gfs)) : k ∈ keysF gfs := by
  induction gfs with
  | nil => rw [cdLoop1] at h; simp at h
  | cons kv rest ih =>
    obtain ⟨k0, gv0⟩ := kv
    rw [cdLoop1_cons] at h
    cases he : cdEntry w k0 gv0 with
    | none =>
      rw [he] at h
      simp [ih h]
    | some e =>
      rw [he] at h
      rcases (by simpa using h : k = k0 ∨ k ∈ keysF (cdLoop1 w rest)) with h1 | h1
      · simp [h1]
      · simp [ih h1]

theorem dupFree_keysF_cdLoop1 {w : Value} {gfs : List (String × Value)}
    (hg : dupFree (keysF gfs) = true) :
    dupFree (keysF (cdLoop1 w gfs)) = true := by
  induction gfs with
  | nil => rw [cdLoop1]; simp [dupFree]
  | cons kv rest ih =>
    obtain ⟨k0, gv0⟩ := kv
    have hg2 := dupFree_cons_iff.mp (by simpa using hg)
    rw [cdLoop1_cons]
    cases cdEntry w k0 gv0 with
    | none => exact ih hg2.2
    | some e =>
      simp only [keysF_cons, dupFree_cons_iff]
      exact ⟨fun hc => hg2.1 (mem_keysF_cdLoop1 hc), ih hg2.2⟩

theorem lookupF_cdLoop1 {w : Value} {gfs : List (String × Value)}
    (hg : dupFree (keysF gfs) = true) (k : String) :
    lookupF (cdLoop1 w gfs) k = (lookupF gfs k).bind (cdEntry w k) := by
  induction gfs with
  | nil => rw [cdLoop1]; simp [lookupF]
  | cons kv rest ih =>
    obtain ⟨k0, gv0⟩ := kv
    have hg2 := dupFree_cons_iff.mp (by simpa using hg)
    rw [cdLoop1_cons]
    by_cases hk : k = k0
    · subst hk
      have hnone : lookupF (cdLoop1 w rest) k = none :=
        lookupF_eq_none_iff.mpr (fun hc => hg2.1 (mem_keysF_cdLoop1 hc))
      cases he : cdEntry w k gv0 with
      | none => simp [lookupF, hnone, he]
      | some e => simp [lookupF, he]
    · cases he : cdEntry w k0 gv0 with
      | none => simpa [lookupF, Ne.symm hk] using ih hg2.2
      | some e => simpa [lookupF, Ne.symm hk] using ih hg2.2

theorem lookupF_cdLoop2 {tfs : List (String × Value)} {ks : List String} :
    ∀ {d : List (String × Value)} (k : String),
    lookupF (cdLoop2 tfs ks d) k =
      if k ∈ ks ∧ delCond tfs k = true then some vdel else lookupF d k := by
  induction ks with
  | nil => intro d k; simp [cdLoop2]
  | cons k0 ks ih =>
    intro d k
    rw [cdLoop2]
    by_cases hk : k = k0
    · subst hk
      cases hl : lookupF tfs k with
      | none =>
        rw [ih]
        by_cases hmem : k ∈ ks ∧ delCond tfs k = true
        · simp [hmem, delCond, hl]
        · simp [hmem, delCond, hl, lookupF_setKey_self]
      | some v =>
        cases v with
        | vnull =>
          rw [ih]
          by_cases hmem : k ∈ ks ∧ delCond tfs k = true
          · simp [hmem, delCond, hl]
          · simp [hmem, delCond, hl, lookupF_setKey_self]
        | _ =>
          rw [ih]
          simp [delCond, hl]
    · cases hl : lookupF tfs k0 with
      | none =>
        rw [ih]
        by_cases hmem : k ∈ ks ∧ delCond tfs k = true
        · simp [hmem, hk]
        · simp [hmem, hk, lookupF_setKey_ne hk]
      | some v =>
        cases v with
        | vnull =>
          rw [ih]
          by_cases hmem : k ∈ ks ∧ delCond tfs k = true
          · simp [hmem, hk]
          · simp [hmem, hk, lookupF_setKey_ne hk]
        | _ =>
          rw [ih]
          by_cases hmem : k ∈ ks ∧ delCond tfs k = true
          · simp [hmem, hk]
          · simp [hmem, hk]

theorem dupFree_keysF_cdLoop2 {tfs : List (String × Value)} {ks : List String} :
    ∀ {d : List (String × Value)}, dupFree (keysF d) = true →
      dupFree (keysF (cdLoop2 tfs ks d)) = true := by
  induction ks with
  | nil => intro d h; simpa [cdLoop2] using h
  | cons k0 ks ih =>
    intro d h
    rw [cdLoop2]
    cases lookupF tfs k0 with
    | none => exact ih (dupFree_keysF_setKey h)
    | some v => cases v <;> first
        | exact ih (dupFree_keysF_setKey h)
        | exact ih h

theorem dupFree_keysF_computeDiffF {w : Value} {gfs : List (String × Value)}
    (hg : dupFree (keysF gfs) = true) :
    dupFree (keysF (computeDiffF w gfs)) = true := by
  rw [computeDiffF]
  exact dupFree_keysF_cdLoop2 (dupFree_keysF_cdLoop1 hg)

/-- The full per-key characterization of `computeDiff(from, to)` for a
duplicate-free `to`. -/
theorem lookupF_computeDiffF {w : Value} {gfs : List (String × Value)}
    (hg : dupFree (keysF gfs) = true) (k : String) :
    lookupF (computeDiffF w gfs) k =
      if k ∈ keysOf w ∧ delCond gfs k = true then some vdel
      else (lookupF gfs k).bind (cdEntry w k) := by
  rw [computeDiffF, lookupF_cdLoop2, lookupF_cdLoop1 hg]

/-! ### Non-emptiness and emptiness of computed diffs -/

theorem ndV_vobj_elim {fs : List (String × Value)} (h : ndV (vobj fs) = true) :
    dupFree (keysF fs) = true ∧ ndF fs = true := by
  simpa [ndV, Bool.and_eq_true] using h

theorem skV_vobj_elim {fs : List (String × Value)} (h : skV (vobj fs) = true) :
    (keysF fs).all safeKey = true ∧ skF fs = true := by
  simpa [skV, Bool.and_eq_true] using h

/-- When `from` answers to none of `to`'s keys (for instance an empty
object, a primitive, or any non-object at safe keys) and `to` is a
non-empty object whose own object fields are hereditarily non-empty,
`computeDiff(from, to)` is non-empty. -/
theorem computeDiffF_ne_nil_of_unseen_aux :
    ∀ (n : Nat) (gfs : List (String × Value)) (w : Value), sizeOf gfs ≤ n →
      gfs ≠ [] → neoF gfs = true →
      (∀ k ∈ keysF gfs, getProp w k = none) → computeDiffF w gfs ≠ [] := by
  intro n
  induction n with
  | zero =>
    intro gfs w hsz hne _ _
    cases gfs with
    | nil => exact absurd rfl hne
    | cons kv rest => simp only [List.cons.sizeOf_spec] at hsz; omega
  | succ n ih =>
    intro gfs w hsz hne hneo hget
    cases gfs with
    | nil => exact absurd rfl hne
    | cons kv rest =>
      obtain ⟨k0, gv0⟩ := kv
      intro hc
      rw [computeDiffF] at hc
      have h2 : cdLoop1 w ((k0, gv0) :: rest) = [] := by
        by_contra hne2
        exact cdLoop2_ne_nil hne2 hc
      rw [cdLoop1_cons] at h2
      have hg : getProp w k0 = none := hget k0 (by simp)
      cases gv0 with
      | vobj gvf =>
        obtain ⟨hne0, hneo0, _⟩ := neoF_cons hneo
        have hgv : gvf ≠ [] := fun h => hne0 (by rw [h])
        have hszg : sizeOf gvf ≤ n := by
          simp only [List.cons.sizeOf_spec, Prod.mk.sizeOf_spec,
            Value.vobj.sizeOf_spec] at hsz
          omega
        have hrec : computeDiffF (vobj []) gvf ≠ [] :=
          ih gvf (vobj []) hszg hgv
            (by simpa [neoV] using hneo0) (fun k _ => rfl)
        revert h2
        simp only [cdEntry, hg, deepEqOpt, defaultFrom]
        cases hcd : computeDiffF (vobj []) gvf with
        | nil => exact absurd hcd hrec
        | cons a l => simp [List.isEmpty]
      | varr xs => revert h2; simp [cdEntry, hg, deepEqOpt]
      | vnull => revert h2; simp [cdEntry, hg, jsStrictEqOpt]
      | vbool b => revert h2; simp [cdEntry, hg, jsStrictEqOpt]
      | vint n2 => revert h2; simp [cdEntry, hg, jsStrictEqOpt]
      | vstr s => revert h2; simp [cdEntry, hg, jsStrictEqOpt]
      | vts a b => revert h2; simp [cdEntry, hg, jsStrictEqOpt]
      | vdel => revert h2; simp [cdEntry, hg, jsStrictEqOpt]
      | vstamp => revert h2; simp [cdEntry, hg, jsStrictEqOpt]

theorem computeDiffF_ne_nil_of_unseen (gfs : List (String × Value))
    (w : Value) (hne : gfs ≠ []) (hneo : neoF gfs = true)
    (hget : ∀ k ∈ keysF gfs, getProp w k = none) : computeDiffF w gfs ≠ [] :=
  computeDiffF_ne_nil_of_unseen_aux (sizeOf gfs) gfs w le_rfl hne hneo hget

/-- `computeDiff(a, a)` on a well-formed null-free state is the empty diff
(only null fields would produce deleteField entries). -/
theorem cdLoop1_self {whole : List (String × Value)}
    (hnd : dupFree (keysF whole) = true) :
    ∀ sub : List (String × Value), (∀ kv ∈ sub, kv ∈ whole) →
      sfF sub = true → ndF sub = true → cdLoop1 (vobj whole) sub = [] := by
  intro sub
  induction sub with
  | nil => intro _ _ _; rw [cdLoop1]
  | cons kv rest ih =>
    intro hmem hsf hndF
    obtain ⟨k, gv⟩ := kv
    have hkmem : (k, gv) ∈ whole := hmem (k, gv) (List.mem_cons_self _ _)
    have hlk : lookupF whole k = some gv := lookupF_eq_some_of_mem hnd hkmem
    have hsf2 : sfV gv = true ∧ sfF rest = true := by
      simpa [sfF, Bool.and_eq_true] using hsf
    have hnd2 : ndV gv = true ∧ ndF rest = true := by
      simpa [ndF, Bool.and_eq_true] using hndF
    have hrefl : isDeepEqual gv gv = true := deepEq_refl gv hsf2.1 hnd2.1
    have hrest : cdLoop1 (vobj whole) rest = []  :=
      ih (fun kv hkv => hmem kv (List.mem_cons_of_mem _ hkv)) hsf2.2 hnd2.2
    rw [cdLoop1_cons]
    have hce : cdEntry (vobj whole) k gv = none := by
      cases gv with
      | varr xs => simp [cdEntry, getProp, hlk, deepEqOpt, hrefl]
      | vobj gvf => simp [cdEntry, getProp, hlk, deepEqOpt, hrefl]
      | vnull => simp [cdEntry, getProp, hlk, jsStrictEqOpt, jsStrictEq]
      | vbool b => simp [cdEntry, getProp, hlk, jsStrictEqOpt, jsStrictEq]
      | vint n => simp [cdEntry, getProp, hlk, jsStrictEqOpt, jsStrictEq]
      | vstr s => simp [cdEntry, getProp, hlk, jsStrictEqOpt, jsStrictEq]
      | vts a b => simp [cdEntry, getProp, hlk, jsStrictEqOpt, jsStrictEq]
      | vdel => simp [sfV] at hsf2
      | vstamp => simp [sfV] at hsf2
    rw [hce, hrest]

theorem cdLoop2_id {tfs : List (String × Value)} {ks : List String}
    (h : ∀ k ∈ ks, delCond tfs k = false) :
    ∀ d : List (String × Value), cdLoop2 tfs ks d = d := by
  induction ks with
  | nil => intro d; rw [cdLoop2]
  | cons k0 ks ih =>
    intro d
    have h0 := h k0 (by simp)
    rw [cdLoop2]
    cases hl : lookupF tfs k0 with
    | none => simp [delCond, hl] at h0
    | some v =>
      cases v with
      | vnull => simp [delCond, hl] at h0
      | _ => exact ih (fun k hk => h k (List.mem_cons_of_mem _ hk)) d

theorem computeDiffF_self {fs : List (String × Value)}
    (hsf : sfF fs = true) (hnd : dupFree (keysF fs) = true)
    (hndF : ndF fs = true) (hnn : nnF fs = true) :
    computeDiffF (vobj fs) fs = [] := by
  rw [computeDiffF]
  have h1 : cdLoop1 (vobj fs) fs = [] :=
    cdLoop1_self hnd fs (fun kv hkv => hkv) hsf hndF
  have h2 : ∀ k ∈ keysOf (vobj fs), delCond fs k = false := by
    intro k hk
    have hk2 : k ∈ keysF fs := by simpa [keysOf] using hk
    have hsome := lookupF_isSome_iff_mem.mpr hk2
    cases hl : lookupF fs k with
    | none => simp [hl] at hsome
    | some gv =>
      have hmem := mem_of_lookupF_eq_some hl
      have hneq := (nnF_mem hnn hmem).1
      cases gv with
      | vnull => exact absurd rfl hneq
      | _ => simp [delCond, hl]
  rw [h1, cdLoop2_id h2]

/-- If `computeDiff(from, to)` is empty for plain objects `from`, `to`
(with `to` hereditarily well-formed: duplicate-free safe keys, no
sentinels, no empty object fields), then `from` and `to` are deep-equal.
-/
theorem deepEq_of_computeDiffF_empty :
    ∀ (gfs ffs : List (String × Value)),
      ndV (vobj ffs) = true →
      ndV (vobj gfs) = true → sfV (vobj gfs) = true →
      skV (vobj gfs) = true → neoV (vobj gfs) = true →
      computeDiffF (vobj ffs) gfs = [] →
      isDeepEqual (vobj ffs) (vobj gfs) = true := by
  intro gfs ffs hndf hndg hsfg hskg hneog hcd
  obtain ⟨hndf1, hndf2⟩ := ndV_vobj_elim hndf
  obtain ⟨hndg1, hndg2⟩ := ndV_vobj_elim hndg
  obtain ⟨hskg1, hskg2⟩ := skV_vobj_elim hskg
  have hlk : ∀ k, lookupF (computeDiffF (vobj ffs) gfs) k = none := by
    intro k; rw [hcd]; rfl
  have hchar : ∀ k,
      (if k ∈ keysOf (vobj ffs) ∧ delCond gfs k = true then some vdel
       else (lookupF gfs k).bind (cdEntry (vobj ffs) k)) = none := by
    intro k
    rw [← lookupF_computeDiffF hndg1 k]
    exact hlk k
  -- From the characterization, extract both conjuncts per key.
  have hnodel : ∀ k, ¬(k ∈ keysOf (vobj ffs) ∧ delCond gfs k = true) := by
    intro k hk
    have := hchar k
    rw [if_pos hk] at this
    cases this
  have hbind : ∀ k, (lookupF gfs k).bind (cdEntry (vobj ffs) k) = none := by
    intro k
    have := hchar k
    rwa [if_neg (hnodel k)] at this
  -- Key inclusion: keys of ffs are keys of gfs.
  have hsub1 : ∀ k ∈ keysF ffs, k ∈ keysF gfs := by
    intro k hk
    by_contra hnk
    have : delCond gfs k = true := by
      simp [delCond, lookupF_eq_none_iff.mpr hnk]
    exact hnodel k ⟨by simpa [keysOf] using hk, this⟩
  -- Per-key facts for keys of gfs.
  have hkey : ∀ k gv, lookupF gfs k = some gv →
      ∃ fv, lookupF ffs k = some fv ∧ isDeepEqual fv gv = true := by
    intro k gv hl
    have hmemgv := mem_of_lookupF_eq_some hl
    have hce : cdEntry (vobj ffs) k gv = none := by
      have := hbind k
      rwa [hl, Option.some_bind] at this
    cases gv with
    | vnull =>
      exfalso
      have hfv : lookupF ffs k = some vnull := by
        by_contra hfv
        have : jsStrictEqOpt (getProp (vobj ffs) k) vnull = true := by
          by_contra hje
          simp [cdEntry, Bool.not_eq_true] at hce
          simp [(Bool.not_eq_true _).mp hje] at hce
        cases hgp : lookupF ffs k with
        | none => rw [show getProp (vobj ffs) k = lookupF ffs k from rfl, hgp] at this
                  simp [jsStrictEqOpt] at this
        | some fv =>
          rw [show getProp (vobj ffs) k = lookupF ffs k from rfl, hgp] at this
          cases fv <;> simp [jsStrictEqOpt, jsStrictEq] at this
          exact hfv (by rw [hgp])
      exact hnodel k ⟨by
          simpa [keysOf] using mem_keysF_of_mem (mem_of_lookupF_eq_some hfv),
        by simp [delCond, hl]⟩
    | varr xs =>
      have : deepEqOpt (getProp (vobj ffs) k) (varr xs) = true := by
        by_contra hde
        simp [cdEntry, (Bool.not_eq_true _).mp hde] at hce
      cases hgp : lookupF ffs k with
      | none =>
        rw [show getProp (vobj ffs) k = lookupF ffs k from rfl, hgp] at this
        simp [deepEqOpt] at this
      | some fv =>
        rw [show getProp (vobj ffs) k = lookupF ffs k from rfl, hgp] at this
        exact ⟨fv, rfl, by simpa [deepEqOpt] using this⟩
    | vobj gvf =>
      by_cases hde : deepEqOpt (getProp (vobj ffs) k) (vobj gvf) = true
      · cases hgp : lookupF ffs k with
        | none =>
          rw [show getProp (vobj ffs) k = lookupF ffs k from rfl, hgp] at hde
          simp [deepEqOpt] at hde
        | some fv =>
          rw [show getProp (vobj ffs) k = lookupF ffs k from rfl, hgp] at hde
          exact ⟨fv, rfl, by simpa [deepEqOpt] using hde⟩
      · -- the nested diff must be empty
        have hnested :
            (computeDiffF (defaultFrom (getProp (vobj ffs) k)) gvf) = [] := by
          by_contra hne
          have : ¬(computeDiffF (defaultFrom (getProp (vobj ffs) k)) gvf).isEmpty
              = true := by
            cases hx : computeDiffF (defaultFrom (getProp (vobj ffs) k)) gvf with
            | nil => exact absurd hx hne
            | cons a l => simp [List.isEmpty]
          simp [cdEntry, (Bool.not_eq_true _).mp hde,
            (Bool.not_eq_true _).mp this] at hce
        have hgvne : gvf ≠ [] := by
          have := (neoF_mem (by simpa [neoV] using hneog) hmemgv).1
          intro hx; exact this (by rw [hx])
        have hneogvf : neoF gvf = true := by
          have := (neoF_mem (by simpa [neoV] using hneog) hmemgv).2
          simpa [neoV] using this
        have hsafe : ∀ k2 ∈ keysF gvf, safeKey k2 = true := by
          intro k2 hk2
          have hskgv : skV (vobj gvf) = true := skF_mem hskg2 hmemgv
          exact skV_vobj_keys hskgv hk2
        cases hgp : lookupF ffs k with
        | none =>
          exfalso
          rw [show getProp (vobj ffs) k = lookupF ffs k from rfl, hgp] at hnested
          exact computeDiffF_ne_nil_of_unseen gvf (defaultFrom none) hgvne hneogvf
            (fun k2 _ => rfl) hnested
        | some fv =>
          rw [show getProp (vobj ffs) k = lookupF ffs k from rfl, hgp] at hnested
          cases fv with
          | vobj ffs' =>
            refine ⟨vobj ffs', rfl, ?_⟩
            have hmemfv := mem_of_lookupF_eq_some hgp
            have hndfv : ndV (vobj ffs') = true := ndF_mem hndf2 hmemfv
            exact deepEq_of_computeDiffF_empty gvf ffs' hndfv
              (ndF_mem hndg2 hmemgv) (sfF_mem (by simpa [sfV] using hsfg) hmemgv)
              (skF_mem hskg2 hmemgv)
              (by simpa [neoV] using (neoF_mem (by simpa [neoV] using hneog) hmemgv).2)
              (by simpa [defaultFrom] using hnested)
          | vnull =>
            exfalso
            exact computeDiffF_ne_nil_of_unseen gvf (vobj []) hgvne hneogvf
              (fun k2 _ => rfl) (by simpa [defaultFrom] using hnested)
          | varr xs =>
            exfalso
            exact computeDiffF_ne_nil_of_unseen gvf (varr xs) hgvne hneogvf
              (fun k2 hk2 => getProp_safe_none (hsafe k2 hk2) rfl)
              (by simpa [defaultFrom] using hnested)
          | vbool b =>
            exfalso
            exact computeDiffF_ne_nil_of_unseen gvf (vbool b) hgvne hneogvf
              (fun k2 hk2 => getProp_safe_none (hsafe k2 hk2) rfl)
              (by simpa [defaultFrom] using hnested)
          | vint n =>
            exfalso
            exact computeDiffF_ne_nil_of_unseen gvf (vint n) hgvne hneogvf
              (fun k2 hk2 => getProp_safe_none (hsafe k2 hk2) rfl)
              (by simpa [defaultFrom] using hnested)
          | vstr s =>
            exfalso
            exact computeDiffF_ne_nil_of_unseen gvf (vstr s) hgvne hneogvf
              (fun k2 hk2 => getProp_safe_none (hsafe k2 hk2) rfl)
              (by simpa [defaultFrom] using hnested)
          | vts a b =>
            exfalso
            exact computeDiffF_ne_nil_of_unseen gvf (vts a b) hgvne hneogvf
              (fun k2 hk2 => getProp_safe_none (hsafe k2 hk2) rfl)
              (by simpa [defaultFrom] using hnested)
          | vdel =>
            exfalso
            exact computeDiffF_ne_nil_of_unseen gvf vdel hgvne hneogvf
              (fun k2 hk2 => getProp_safe_none (hsafe k2 hk2) rfl)
              (by simpa [defaultFrom] using hnested)
          | vstamp =>
            exfalso
            exact computeDiffF_ne_nil_of_unseen gvf vstamp hgvne hneogvf
              (fun k2 hk2 => getProp_safe_none (hsafe k2 hk2) rfl)
              (by simpa [defaultFrom] using hnested)
    | vbool b =>
      have : jsStrictEqOpt (getProp (vobj ffs) k) (vbool b) = true := by
        by_contra hje
        simp [cdEntry, (Bool.not_eq_true _).mp hje] at hce
      cases hgp : lookupF ffs k with
      | none =>
        rw [show getProp (vobj ffs) k = lookupF ffs k from rfl, hgp] at this
        simp [jsStrictEqOpt] at this
      | some fv =>
        rw [show getProp (vobj ffs) k = lookupF ffs k from rfl, hgp] at this
        exact ⟨fv, rfl, jsStrictEq_to_deepEq (by simpa [jsStrictEqOpt] using this)⟩
    | vint n =>
      have : jsStrictEqOpt (getProp (vobj ffs) k) (vint n) = true := by
        by_contra hje
        simp [cdEntry, (Bool.not_eq_true _).mp hje] at hce
      cases hgp : lookupF ffs k with
      | none =>
        rw [show getProp (vobj ffs) k = lookupF ffs k from rfl, hgp] at this
        simp [jsStrictEqOpt] at this
      | some fv =>
        rw [show getProp (vobj ffs) k = lookupF ffs k from rfl, hgp] at this
        exact ⟨fv, rfl, jsStrictEq_to_deepEq (by simpa [jsStrictEqOpt] using this)⟩
    | vstr s =>
      have : jsStrictEqOpt (getProp (vobj ffs) k) (vstr s) = true := by
        by_contra hje
        simp [cdEntry, (Bool.not_eq_true _).mp hje] at hce
      cases hgp : lookupF ffs k with
      | none =>
        rw [show getProp (vobj ffs) k = lookupF ffs k from rfl, hgp] at this
        simp [jsStrictEqOpt] at this
      | some fv =>
        rw [show getProp (vobj ffs) k = lookupF ffs k from rfl, hgp] at this
        exact ⟨fv, rfl, jsStrictEq_to_deepEq (by simpa [jsStrictEqOpt] using this)⟩
    | vts a b =>
      have : jsStrictEqOpt (getProp (vobj ffs) k) (vts a b) = true := by
        by_contra hje
        simp [cdEntry, (Bool.not_eq_true _).mp hje] at hce
      cases hgp : lookupF ffs k with
      | none =>
        rw [show getProp (vobj ffs) k = lookupF ffs k from rfl, hgp] at this
        simp [jsStrictEqOpt] at this
      | some fv =>
        rw [show getProp (vobj ffs) k = lookupF ffs k from rfl, hgp] at this
        exact ⟨fv, rfl, jsStrictEq_to_deepEq (by simpa [jsStrictEqOpt] using this)⟩
    | vdel =>
      exfalso
      have := sfF_mem (by simpa [sfV] using hsfg) hmemgv
      simp [sfV] at this
    | vstamp =>
      exfalso
      have := sfF_mem (by simpa [sfV] using hsfg) hmemgv
      simp [sfV] at this
  -- Assemble via the extensional criterion.
  apply isDeepEqual_vobj_of_ext hndf1 hndg1
  · intro k
    constructor
    · exact hsub1 k
    · intro hk
      have hsome := lookupF_isSome_iff_mem.mpr hk
      cases hl : lookupF gfs k with
      | none => simp [hl] at hsome
      | some gv =>
        obtain ⟨fv, hfv, _⟩ := hkey k gv hl
        exact mem_keysF_of_mem (mem_of_lookupF_eq_some hfv)
  · intro k v w hv hw
    obtain ⟨fv, hfv, hde⟩ := hkey k w hw
    rw [hv] at hfv
    obtain rfl : v = fv := by injection hfv
    exact hde
termination_by gfs => sizeOf gfs
decreasing_by
  have := List.sizeOf_lt_of_mem hmemgv
  simp only [List.cons.sizeOf_spec, Prod.mk.sizeOf_spec, Value.vobj.sizeOf_spec] at *
  omega

/-! ### Hygiene transport through applyDiff -/

/-- The field list of a plain object, and the empty list for anything
else (the target a nested diff recurses into). -/
def objFields : Value → List (String × Value)
  | vobj fs => fs
  | _ => []

theorem dupFree_objFields {w : Value} (h : ndV w = true) :
    dupFree (keysF (objFields w)) = true := by
  cases w with
  | vobj fs => exact (ndV_vobj_elim h).1
  | _ => rfl

theorem ndF_objFields {w : Value} (h : ndV w = true) :
    ndF (objFields w) = true := by
  cases w with
  | vobj fs => exact (ndV_vobj_elim h).2
  | _ => rfl

theorem lookupF_objFields_none {w : Value} {k : String}
    (h : k ∉ keysOf w) : lookupF (objFields w) k = none := by
  cases w with
  | vobj fs => exact lookupF_eq_none_iff.mpr (by simpa [keysOf] using h)
  | _ => rfl

theorem getProp_eq_lookupF_objFields {w : Value} {k : String}
    (hs : safeKey k = true) : getProp w k = lookupF (objFields w) k := by
  cases w with
  | vobj fs => rfl
  | vnull => rfl
  | vbool b => rfl
  | vint n => rfl
  | vstr s =>
    have h0 : getProp (vstr s) k = none := getProp_safe_none hs rfl
    rw [h0]; rfl
  | varr xs =>
    have h0 : getProp (varr xs) k = none := getProp_safe_none hs rfl
    rw [h0]; rfl
  | vts a b =>
    have h0 : getProp (vts a b) k = none := getProp_safe_none hs rfl
    rw [h0]; rfl
  | vdel =>
    have h0 : getProp vdel k = none := getProp_safe_none hs rfl
    rw [h0]; rfl
  | vstamp =>
    have h0 : getProp vstamp k = none := getProp_safe_none hs rfl
    rw [h0]; rfl

theorem innerOf_defaultFrom (o : Option Value) :
    innerOf o = objFields (defaultFrom o) := by
  cases o with
  | none => rfl
  | some v => cases v <;> rfl

/-- Diff well-formedness for hygiene transport: every non-sentinel value
in the diff (hereditarily through nested object diffs) is sentinel-free
with hereditarily duplicate-free keys. -/
def sdDiffF : List (String × Value) → Bool
  | [] => true
  | (_, vdel) :: rest => sdDiffF rest
  | (_, vstamp) :: rest => sdDiffF rest
  | (_, vobj dfs) :: rest => sdDiffF dfs && sdDiffF rest
  | (_, v) :: rest => sfV v && ndV v && sdDiffF rest

theorem sdDiffF_cons_elim {k : String} {v : Value}
    {rest : List (String × Value)} (h : sdDiffF ((k, v) :: rest) = true) :
    sdDiffF rest = true := by
  cases v <;> simp_all [sdDiffF]

theorem sdDiffF_setKey_vdel {d : List (String × Value)} {k : String}
    (h : sdDiffF d = true) : sdDiffF (setKey d k vdel) = true := by
  induction d with
  | nil => simp [setKey, sdDiffF]
  | cons kv rest ih =>
    obtain ⟨k0, v0⟩ := kv
    by_cases hk : k0 = k
    · subst hk
      have h2 := sdDiffF_cons_elim h
      cases v0 <;> simp_all [setKey, sdDiffF]
    · have h2 := sdDiffF_cons_elim h
      cases v0 with
      | vdel => simp_all [setKey, sdDiffF, hk]
      | vstamp => simp_all [setKey, sdDiffF, hk]
      | vobj dfs => simp_all [setKey, sdDiffF, hk]
      | vnull => simp_all [setKey, sdDiffF, hk]
      | vbool b => simp_all [setKey, sdDiffF, hk]
      | vint n => simp_all [setKey, sdDiffF, hk]
      | vstr s => simp_all [setKey, sdDiffF, hk]
      | vts a b => simp_all [setKey, sdDiffF, hk]
      | varr xs => simp_all [setKey, sdDiffF, hk]

theorem sdDiffF_cdLoop2 {tfs : List (String × Value)} {ks : List String} :
    ∀ {d : List (String × Value)}, sdDiffF d = true →
      sdDiffF (cdLoop2 tfs ks d) = true := by
  induction ks with
  | nil => intro d h; simpa [cdLoop2] using h
  | cons k0 ks ih =>
    intro d h
    rw [cdLoop2]
    cases lookupF tfs k0 with
    | none => exact ih (sdDiffF_setKey_vdel h)
    | some v => cases v <;> first
        | exact ih (sdDiffF_setKey_vdel h)
        | exact ih h

theorem sdDiffF_cdLoop1_aux :
    ∀ (n : Nat) (gfs : List (String × Value)) (w : Value), sizeOf gfs ≤ n →
      sfF gfs = true → ndF gfs = true → sdDiffF (cdLoop1 w gfs) = true := by
  intro n
  induction n with
  | zero =>
    intro gfs w hsz _ _
    cases gfs with
    | nil => rw [cdLoop1]; simp [sdDiffF]
    | cons kv rest => simp only [List.cons.sizeOf_spec] at hsz; omega
  | succ n ih =>
    intro gfs w hsz hsf hnd
    cases gfs with
    | nil => rw [cdLoop1]; simp [sdDiffF]
    | cons kv rest =>
      obtain ⟨k0, gv0⟩ := kv
      have hszr : sizeOf rest ≤ n := by
        simp only [List.cons.sizeOf_spec, Prod.mk.sizeOf_spec] at hsz
        omega
      have hsf2 : sfV gv0 = true ∧ sfF rest = true := by
        simpa [sfF, Bool.and_eq_true] using hsf
      have hnd2 : ndV gv0 = true ∧ ndF rest = true := by
        simpa [ndF, Bool.and_eq_true] using hnd
      have hrest : sdDiffF (cdLoop1 w rest) = true :=
        ih rest w hszr hsf2.2 hnd2.2
      rw [cdLoop1_cons]
      cases gv0 with
      | varr xs =>
        cases he : cdEntry w k0 (varr xs) with
        | none => exact hrest
        | some e =>
          have : e = varr xs := by
            revert he
            simp only [cdEntry]
            split
            · intro h; cases h
            · intro h; injection h with h2; exact h2.symm
          subst this
          simpa [sdDiffF, Bool.and_eq_true] using ⟨⟨hsf2.1, hnd2.1⟩, hrest⟩
      | vobj gvf =>
        have hszg : sizeOf gvf ≤ n := by
          simp only [List.cons.sizeOf_spec, Prod.mk.sizeOf_spec,
            Value.vobj.sizeOf_spec] at hsz
          omega
        have hnested : sdDiffF (computeDiffF (defaultFrom (getProp w k0)) gvf)
            = true := by
          rw [computeDiffF]
          exact sdDiffF_cdLoop2 (ih gvf _ hszg (by simpa [sfV] using hsf2.1)
            (ndV_vobj_elim hnd2.1).2)
        cases he : cdEntry w k0 (vobj gvf) with
        | none => exact hrest
        | some e =>
          have : e = vobj (computeDiffF (defaultFrom (getProp w k0)) gvf) := by
            revert he
            simp only [cdEntry]
            split
            · intro h; cases h
            · split
              · intro h; cases h
              · intro h; injection h with h2; exact h2.symm
          subst this
          simpa [sdDiffF, Bool.and_eq_true] using ⟨hnested, hrest⟩
      | vnull =>
        cases he : cdEntry w k0 vnull with
        | none => exact hrest
        | some e =>
          have : e = vnull := by
            revert he
            simp only [cdEntry]
            split
            · intro h; cases h
            · intro h; injection h with h2; exact h2.symm
          subst this
          simpa [sdDiffF, sfV, ndV] using hrest
      | vbool b =>
        cases he : cdEntry w k0 (vbool b) with
        | none => exact hrest
        | some e =>
          have : e = vbool b := by
            revert he
            simp only [cdEntry]
            split
            · intro h; cases h
            · intro h; injection h with h2; exact h2.symm
          subst this
          simpa [sdDiffF, sfV, ndV] using hrest
      | vint m =>
        cases he : cdEntry w k0 (vint m) with
        | none => exact hrest
        | some e =>
          have : e = vint m := by
            revert he
            simp only [cdEntry]
            split
            · intro h; cases h
            · intro h; injection h with h2; exact h2.symm
          subst this
          simpa [sdDiffF, sfV, ndV] using hrest
      | vstr s =>
        cases he : cdEntry w k0 (vstr s) with
        | none => exact hrest
        | some e =>
          have : e = vstr s := by
            revert he
            simp only [cdEntry]
            split
            · intro h; cases h
            · intro h; injection h with h2; exact h2.symm
          subst this
          simpa [sdDiffF, sfV, ndV] using hrest
      | vts a b =>
        cases he : cdEntry w k0 (vts a b) with
        | none => exact hrest
        | some e =>
          have : e = vts a b := by
            revert he
            simp only [cdEntry]
            split
            · intro h; cases h
            · intro h; injection h with h2; exact h2.symm
          subst this
          simpa [sdDiffF, sfV, ndV] using hrest
      | vdel => simp [sfV] at hsf2
      | vstamp => simp [sfV] at hsf2

/-- The diff produced by computeDiff from a sentinel-free, hereditarily
duplicate-free `to` satisfies `sdDiffF`. -/
theorem sdDiffF_computeDiffF {gfs : List (String × Value)} {w : Value}
    (hsf : sfF gfs = true) (hnd : ndF gfs = true) :
    sdDiffF (computeDiffF w gfs) = true := by
  rw [computeDiffF]
  exact sdDiffF_cdLoop2 (sdDiffF_cdLoop1_aux (sizeOf gfs) gfs w le_rfl hsf hnd)

theorem sfF_setKey {fs : List (String × Value)} {k : String} {v : Value}
    (h : sfF fs = true) (hv : sfV v = true) : sfF (setKey fs k v) = true := by
  induction fs with
  | nil => simp [setKey, sfF, hv]
  | cons kv rest ih =>
    obtain ⟨k0, w0⟩ := kv
    have h2 : sfV w0 = true ∧ sfF rest = true := by
      simpa [sfF, Bool.and_eq_true] using h
    by_cases hk : k0 = k
    · subst hk; simpa [setKey, sfF, Bool.and_eq_true] using ⟨hv, h2.2⟩
    · simpa [setKey, hk, sfF, Bool.and_eq_true] using ⟨h2.1, ih h2.2⟩

theorem sfF_eraseKey {fs : List (String × Value)} {k : String}
    (h : sfF fs = true) : sfF (eraseKey fs k) = true := by
  induction fs with
  | nil => simpa [eraseKey] using h
  | cons kv rest ih =>
    obtain ⟨k0, w0⟩ := kv
    have h2 : sfV w0 = true ∧ sfF rest = true := by
      simpa [sfF, Bool.and_eq_true] using h
    by_cases hk : k0 = k
    · subst hk; simpa [eraseKey] using h2.2
    · simpa [eraseKey, hk, sfF, Bool.and_eq_true] using ⟨h2.1, ih h2.2⟩

theorem ndF_setKey {fs : List (String × Value)} {k : String} {v : Value}
    (h : ndF fs = true) (hv : ndV v = true) : ndF (setKey fs k v) = true := by
  induction fs with
  | nil => simp [setKey, ndF, hv]
  | cons kv rest ih =>
    obtain ⟨k0, w0⟩ := kv
    have h2 : ndV w0 = true ∧ ndF rest = true := by
      simpa [ndF, Bool.and_eq_true] using h
    by_cases hk : k0 = k
    · subst hk; simpa [setKey, ndF, Bool.and_eq_true] using ⟨hv, h2.2⟩
    · simpa [setKey, hk, ndF, Bool.and_eq_true] using ⟨h2.1, ih h2.2⟩

theorem ndF_eraseKey {fs : List (String × Value)} {k : String}
    (h : ndF fs = true) : ndF (eraseKey fs k) = true := by
  induction fs with
  | nil => simpa [eraseKey] using h
  | cons kv rest ih =>
    obtain ⟨k0, w0⟩ := kv
    have h2 : ndV w0 = true ∧ ndF rest = true := by
      simpa [ndF, Bool.and_eq_true] using h
    by_cases hk : k0 = k
    · subst hk; simpa [eraseKey] using h2.2
    · simpa [eraseKey, hk, ndF, Bool.and_eq_true] using ⟨h2.1, ih h2.2⟩

theorem sfF_innerOf {tgt : List (String × Value)} {k : String}
    (h : sfF tgt = true) : sfF (innerOf (lookupF tgt k)) = true := by
  cases hl : lookupF tgt k with
  | none => rfl
  | some v =>
    cases v with
    | vobj fs =>
      have := sfF_mem h (mem_of_lookupF_eq_some hl)
      simpa [innerOf, sfV] using this
    | _ => rfl

theorem ndF_innerOf {tgt : List (String × Value)} {k : String}
    (h : ndF tgt = true) :
    ndF (innerOf (lookupF tgt k)) = true ∧
      dupFree (keysF (innerOf (lookupF tgt k))) = true := by
  cases hl : lookupF tgt k with
  | none => exact ⟨rfl, rfl⟩
  | some v =>
    cases v with
    | vobj fs =>
      have := ndV_vobj_elim (ndF_mem h (mem_of_lookupF_eq_some hl))
      exact ⟨this.2, this.1⟩
    | _ => exact ⟨rfl, rfl⟩

/-- applyDiff preserves sentinel-freedom and hereditary key uniqueness
when the diff came from computeDiff on well-formed states. -/
theorem applyDiffF_sf_nd_aux (now : Int × Int) :
    ∀ (n : Nat) (d tgt : List (String × Value)), sizeOf d ≤ n →
      sfF tgt = true → ndF tgt = true → dupFree (keysF tgt) = true →
      sdDiffF d = true →
      sfF (applyDiffF now tgt d) = true ∧ ndF (applyDiffF now tgt d) = true := by
  intro n
  induction n with
  | zero =>
    intro d tgt hsz hsf hnd _ _
    cases d with
    | nil => simpa [applyDiffF] using ⟨hsf, hnd⟩
    | cons kv rest => simp only [List.cons.sizeOf_spec] at hsz; omega
  | succ n ih =>
    intro d tgt hsz hsf hnd hdup hsd
    cases d with
    | nil => simpa [applyDiffF] using ⟨hsf, hnd⟩
    | cons kv rest =>
      obtain ⟨k0, v0⟩ := kv
      have hszr : sizeOf rest ≤ n := by
        simp only [List.cons.sizeOf_spec, Prod.mk.sizeOf_spec] at hsz
        omega
      have hsdr : sdDiffF rest = true := sdDiffF_cons_elim hsd
      cases v0 with
      | vdel =>
        rw [applyDiffF]
        exact ih rest _ hszr (sfF_eraseKey hsf) (ndF_eraseKey hnd)
          (dupFree_keysF_eraseKey hdup) hsdr
      | vstamp =>
        rw [applyDiffF]
        exact ih rest _ hszr (sfF_setKey hsf rfl) (ndF_setKey hnd rfl)
          (dupFree_keysF_setKey hdup) hsdr
      | vobj dfs =>
        rw [applyDiffF]
        have hszd : sizeOf dfs ≤ n := by
          simp only [List.cons.sizeOf_spec, Prod.mk.sizeOf_spec,
            Value.vobj.sizeOf_spec] at hsz
          omega
        have hsdd : sdDiffF dfs = true :=
          (by simpa [sdDiffF, Bool.and_eq_true] using hsd :
            sdDiffF dfs = true ∧ sdDiffF rest = true).1
        obtain ⟨hndi, hdupi⟩ := @ndF_innerOf _ k0 hnd
        have hinner := ih dfs (innerOf (lookupF tgt k0)) hszd
          (sfF_innerOf hsf) hndi hdupi hsdd
        have hdupX : dupFree (keysF (applyDiffF now (innerOf (lookupF tgt k0))
            dfs)) = true := applyDiffF_dupFree hdupi
        have hsfX : sfV (vobj (applyDiffF now (innerOf (lookupF tgt k0)) dfs))
            = true := by simpa [sfV] using hinner.1
        have hndX : ndV (vobj (applyDiffF now (innerOf (lookupF tgt k0)) dfs))
            = true := by
          simp only [ndV, Bool.and_eq_true]
          exact ⟨hdupX, hinner.2⟩
        have hstep := ih rest (setKey tgt k0 (vobj (applyDiffF now
            (innerOf (lookupF tgt k0)) dfs))) hszr (sfF_setKey hsf hsfX)
          (ndF_setKey hnd hndX) (dupFree_keysF_setKey hdup) hsdr
        simpa [innerOf] using hstep
      | vnull =>
        simp only [applyDiffF]
        exact ih rest _ hszr (sfF_setKey hsf rfl) (ndF_setKey hnd rfl)
          (dupFree_keysF_setKey hdup) hsdr
      | vbool b =>
        simp only [applyDiffF]
        have hv : sfV (vbool b) = true ∧ ndV (vbool b) = true := ⟨rfl, rfl⟩
        exact ih rest _ hszr (sfF_setKey hsf hv.1) (ndF_setKey hnd hv.2)
          (dupFree_keysF_setKey hdup) hsdr
      | vint m =>
        simp only [applyDiffF]
        exact ih rest _ hszr (sfF_setKey hsf rfl) (ndF_setKey hnd rfl)
          (dupFree_keysF_setKey hdup) hsdr
      | vstr s =>
        simp only [applyDiffF]
        exact ih rest _ hszr (sfF_setKey hsf rfl) (ndF_setKey hnd rfl)
          (dupFree_keysF_setKey hdup) hsdr
      | vts a b =>
        simp only [applyDiffF]
        exact ih rest _ hszr (sfF_setKey hsf rfl) (ndF_setKey hnd rfl)
          (dupFree_keysF_setKey hdup) hsdr
      | varr xs =>
        simp only [applyDiffF]
        have hv : sfV (varr xs) = true ∧ ndV (varr xs) = true := by
          revert hsd
          simp [sdDiffF, Bool.and_eq_true]
          intro h1 h2 _
          exact ⟨by simpa [sfV] using h1, by simpa [ndV] using h2⟩
        exact ih rest _ hszr (sfF_setKey hsf hv.1) (ndF_setKey hnd hv.2)
          (dupFree_keysF_setKey hdup) hsdr

theorem applyDiffF_sf_nd {now : Int × Int} {d tgt : List (String × Value)}
    (hsf : sfF tgt = true) (hnd : ndF tgt = true)
    (hdup : dupFree (keysF tgt) = true) (hsd : sdDiffF d = true) :
    sfF (applyDiffF now tgt d) = true ∧ ndF (applyDiffF now tgt d) = true :=
  applyDiffF_sf_nd_aux now (sizeOf d) d tgt le_rfl hsf hnd hdup hsd

/-! ### The round-trip law: applying computeDiff(from, to) onto `from`
reproduces `to` (for well-formed `to`) -/

theorem ndV_defaultFrom {w : Value} {k : String}
    (hndFw : ndF (objFields w) = true) (hsafek : safeKey k = true) :
    ndV (defaultFrom (getProp w k)) = true := by
  rw [getProp_eq_lookupF_objFields hsafek]
  cases hl : lookupF (objFields w) k with
  | none => simp [defaultFrom, ndV, dupFree, ndF]
  | some fv =>
    cases fv with
    | vnull => simp [defaultFrom, ndV, dupFree, ndF]
    | _ =>
      have := ndF_mem hndFw (mem_of_lookupF_eq_some hl)
      simpa [defaultFrom] using this

theorem roundtripF_aux :
    ∀ (n : Nat) (gfs : List (String × Value)) (w : Value) (now : Int × Int),
      sizeOf gfs ≤ n → ndV w = true →
      ndV (vobj gfs) = true → sfV (vobj gfs) = true → skV (vobj gfs) = true →
      nnV (vobj gfs) = true → neoV (vobj gfs) = true →
      isDeepEqual (vobj (applyDiffF now (objFields w) (computeDiffF w gfs)))
        (vobj gfs) = true := by
  intro n
  induction n with
  | zero =>
    intro gfs w now hsz _ _ _ _ _ _
    cases gfs with
    | nil => simp only [List.nil.sizeOf_spec] at hsz; omega
    | cons kv rest => simp only [List.cons.sizeOf_spec] at hsz; omega
  | succ n ih =>
    intro gfs w now hsz hndw hndg hsfg hskg hnng hneog
    obtain ⟨hndg1, hndg2⟩ := ndV_vobj_elim hndg
    obtain ⟨hskg1, hskg2⟩ := skV_vobj_elim hskg
    have hsfg2 : sfF gfs = true := by simpa [sfV] using hsfg
    have hnng2 : nnF gfs = true := by simpa [nnV] using hnng
    have hneog2 : neoF gfs = true := by simpa [neoV] using hneog
    have hdupw : dupFree (keysF (objFields w)) = true := dupFree_objFields hndw
    have hndFw : ndF (objFields w) = true := ndF_objFields hndw
    have hdnd : dupFree (keysF (computeDiffF w gfs)) = true :=
      dupFree_keysF_computeDiffF hndg1
    have hchR := @lookupF_applyDiffF now _ hdnd _ hdupw
    have hchD := @lookupF_computeDiffF w _ hndg1
    -- Per-key: keys absent from `to` are absent from the result.
    have hkeyNone : ∀ k, lookupF gfs k = none →
        lookupF (applyDiffF now (objFields w) (computeDiffF w gfs)) k = none := by
      intro k hk
      have hdc : delCond gfs k = true := by simp [delCond, hk]
      rw [hchR k, hchD k, hk]
      by_cases hw : k ∈ keysOf w
      · rw [if_pos ⟨hw, hdc⟩]
        simp [diffResultAt]
      · rw [if_neg (by simp [hw])]
        simp [lookupF_objFields_none hw]
    -- Per-key: keys of `to` end up deep-equal in the result.
    have hkeySome : ∀ k gv, lookupF gfs k = some gv →
        ∃ rv, lookupF (applyDiffF now (objFields w) (computeDiffF w gfs)) k
            = some rv ∧ isDeepEqual rv gv = true := by
      intro k gv hk
      have hmemg : (k, gv) ∈ gfs := mem_of_lookupF_eq_some hk
      have hsafek : safeKey k = true := skV_vobj_keys hskg (mem_keysF_of_mem hmemg)
      have hgvnn := nnF_mem hnng2 hmemg
      have hsfgv : sfV gv = true := sfF_mem hsfg2 hmemg
      have hndgv : ndV gv = true := ndF_mem hndg2 hmemg
      have hdc : delCond gfs k = false := by
        cases gv with
        | vnull => exact absurd rfl hgvnn.1
        | _ => simp [delCond, hk]
      have hgp : getProp w k = lookupF (objFields w) k :=
        getProp_eq_lookupF_objFields hsafek
      rw [hchR k, hchD k, hk, if_neg (by simp [hdc]), Option.some_bind]
      cases gv with
      | vnull => exact absurd rfl hgvnn.1
      | vdel => simp [sfV] at hsfgv
      | vstamp => simp [sfV] at hsfgv
      | varr xs =>
        by_cases hguard : deepEqOpt (getProp w k) (varr xs) = true
        · rw [show cdEntry w k (varr xs) = none by simp [cdEntry, hguard]]
          cases hgp2 : getProp w k with
          | none => rw [hgp2] at hguard; simp [deepEqOpt] at hguard
          | some fv =>
            refine ⟨fv, ?_, ?_⟩
            · show lookupF (objFields w) k = some fv
              rw [← hgp]; exact hgp2
            · rw [hgp2] at hguard
              simpa [deepEqOpt] using hguard
        · rw [show cdEntry w k (varr xs) = some (varr xs) by
            simp [cdEntry, hguard]]
          exact ⟨varr xs, by simp [diffResultAt], deepEq_refl _ hsfgv hndgv⟩
      | vobj gvf =>
        have hne0 : gvf ≠ [] := by
          have := (neoF_mem hneog2 hmemg).1
          intro hx; exact this (by rw [hx])
        have hneo0 : neoF gvf = true := by
          simpa [neoV] using (neoF_mem hneog2 hmemg).2
        have hsafe2 : ∀ k2 ∈ keysF gvf, safeKey k2 = true := by
          intro k2 hk2
          exact skV_vobj_keys (skF_mem hskg2 hmemg) hk2
        by_cases hguard : deepEqOpt (getProp w k) (vobj gvf) = true
        · rw [show cdEntry w k (vobj gvf) = none by simp [cdEntry, hguard]]
          cases hgp2 : getProp w k with
          | none => rw [hgp2] at hguard; simp [deepEqOpt] at hguard
          | some fv =>
            refine ⟨fv, ?_, ?_⟩
            · show lookupF (objFields w) k = some fv
              rw [← hgp]; exact hgp2
            · rw [hgp2] at hguard
              simpa [deepEqOpt] using hguard
        · cases hn : computeDiffF (defaultFrom (getProp w k)) gvf with
          | nil =>
            exfalso
            cases hgp2 : getProp w k with
            | none =>
              rw [hgp2] at hn
              exact computeDiffF_ne_nil_of_unseen gvf (vobj []) hne0 hneo0
                (fun k2 _ => rfl) (by simpa [defaultFrom] using hn)
            | some fv =>
              rw [hgp2] at hn
              have hmemw : (k, fv) ∈ objFields w := by
                apply mem_of_lookupF_eq_some
                rw [← hgp]; exact hgp2
              cases fv with
              | vnull =>
                exact computeDiffF_ne_nil_of_unseen gvf (vobj []) hne0 hneo0
                  (fun k2 _ => rfl) (by simpa [defaultFrom] using hn)
              | vobj ffs2 =>
                have hde := deepEq_of_computeDiffF_empty gvf ffs2
                  (ndF_mem hndFw hmemw) hndgv
                  (by simpa [sfV] using hsfgv) (skF_mem hskg2 hmemg)
                  (by simpa [neoV] using (neoF_mem hneog2 hmemg).2)
                  (by simpa [defaultFrom] using hn)
                rw [hgp2] at hguard
                exact hguard (by simpa [deepEqOpt] using hde)
              | varr ys =>
                exact computeDiffF_ne_nil_of_unseen gvf (varr ys) hne0 hneo0
                  (fun k2 hk2 => getProp_safe_none (hsafe2 k2 hk2) rfl)
                  (by simpa [defaultFrom] using hn)
              | vbool b =>
                exact computeDiffF_ne_nil_of_unseen gvf (vbool b) hne0 hneo0
                  (fun k2 hk2 => getProp_safe_none (hsafe2 k2 hk2) rfl)
                  (by simpa [defaultFrom] using hn)
              | vint m =>
                exact computeDiffF_ne_nil_of_unseen gvf (vint m) hne0 hneo0
                  (fun k2 hk2 => getProp_safe_none (hsafe2 k2 hk2) rfl)
                  (by simpa [defaultFrom] using hn)
              | vstr s =>
                exact computeDiffF_ne_nil_of_unseen gvf (vstr s) hne0 hneo0
                  (fun k2 hk2 => getProp_safe_none (hsafe2 k2 hk2) rfl)
                  (by simpa [defaultFrom] using hn)
              | vts a b =>
                exact computeDiffF_ne_nil_of_unseen gvf (vts a b) hne0 hneo0
                  (fun k2 hk2 => getProp_safe_none (hsafe2 k2 hk2) rfl)
                  (by simpa [defaultFrom] using hn)
              | vdel =>
                exact computeDiffF_ne_nil_of_unseen gvf vdel hne0 hneo0
                  (fun k2 hk2 => getProp_safe_none (hsafe2 k2 hk2) rfl)
                  (by simpa [defaultFrom] using hn)
              | vstamp =>
                exact computeDiffF_ne_nil_of_unseen gvf vstamp hne0 hneo0
                  (fun k2 hk2 => getProp_safe_none (hsafe2 k2 hk2) rfl)
                  (by simpa [defaultFrom] using hn)
          | cons d0 drest =>
            have hentry : cdEntry w k (vobj gvf)
                = some (vobj (computeDiffF (defaultFrom (getProp w k)) gvf)) := by
              simp [cdEntry, hguard, hn, List.isEmpty]
            rw [hentry]
            have hszg : sizeOf gvf ≤ n := by
              have hlt := List.sizeOf_lt_of_mem hmemg
              simp only [Prod.mk.sizeOf_spec, Value.vobj.sizeOf_spec] at hlt
              omega
            have hrec := ih gvf (defaultFrom (getProp w k)) now hszg
              (ndV_defaultFrom hndFw hsafek) hndgv
              (by simpa [sfV] using hsfgv) (skF_mem hskg2 hmemg)
              ((nnF_mem hnng2 hmemg).2) ((neoF_mem hneog2 hmemg).2)
            refine ⟨vobj (applyDiffF now (innerOf (lookupF (objFields w) k))
                (computeDiffF (defaultFrom (getProp w k)) gvf)),
              by simp [diffResultAt], ?_⟩
            have hio : innerOf (lookupF (objFields w) k)
                = objFields (defaultFrom (getProp w k)) := by
              rw [← hgp, innerOf_defaultFrom]
            rw [hio]
            exact hrec
      | vbool b =>
        by_cases hguard : jsStrictEqOpt (getProp w k) (vbool b) = true
        · rw [show cdEntry w k (vbool b) = none by simp [cdEntry, hguard]]
          cases hgp2 : getProp w k with
          | none => rw [hgp2] at hguard; simp [jsStrictEqOpt] at hguard
          | some fv =>
            refine ⟨fv, ?_, ?_⟩
            · show lookupF (objFields w) k = some fv
              rw [← hgp]; exact hgp2
            · rw [hgp2] at hguard
              exact jsStrictEq_to_deepEq (by simpa [jsStrictEqOpt] using hguard)
        · rw [show cdEntry w k (vbool b) = some (vbool b) by
            simp [cdEntry, hguard]]
          exact ⟨vbool b, by simp [diffResultAt], by simp [isDeepEqual]⟩
      | vint m =>
        by_cases hguard : jsStrictEqOpt (getProp w k) (vint m) = true
        · rw [show cdEntry w k (vint m) = none by simp [cdEntry, hguard]]
          cases hgp2 : getProp w k with
          | none => rw [hgp2] at hguard; simp [jsStrictEqOpt] at hguard
          | some fv =>
            refine ⟨fv, ?_, ?_⟩
            · show lookupF (objFields w) k = some fv
              rw [← hgp]; exact hgp2
            · rw [hgp2] at hguard
              exact jsStrictEq_to_deepEq (by simpa [jsStrictEqOpt] using hguard)
        · rw [show cdEntry w k (vint m) = some (vint m) by
            simp [cdEntry, hguard]]
          exact ⟨vint m, by simp [diffResultAt], by simp [isDeepEqual]⟩
      | vstr s =>
        by_cases hguard : jsStrictEqOpt (getProp w k) (vstr s) = true
        · rw [show cdEntry w k (vstr s) = none by simp [cdEntry, hguard]]
          cases hgp2 : getProp w k with
          | none => rw [hgp2] at hguard; simp [jsStrictEqOpt] at hguard
          | some fv =>
            refine ⟨fv, ?_, ?_⟩
            · show lookupF (objFields w) k = some fv
              rw [← hgp]; exact hgp2
            · rw [hgp2] at hguard
              exact jsStrictEq_to_deepEq (by simpa [jsStrictEqOpt] using hguard)
        · rw [show cdEntry w k (vstr s) = some (vstr s) by
            simp [cdEntry, hguard]]
          exact ⟨vstr s, by simp [diffResultAt], by simp [isDeepEqual]⟩
      | vts a b =>
        by_cases hguard : jsStrictEqOpt (getProp w k) (vts a b) = true
        · rw [show cdEntry w k (vts a b) = none by simp [cdEntry, hguard]]
          cases hgp2 : getProp w k with
          | none => rw [hgp2] at hguard; simp [jsStrictEqOpt] at hguard
          | some fv =>
            refine ⟨fv, ?_, ?_⟩
            · show lookupF (objFields w) k = some fv
              rw [← hgp]; exact hgp2
            · rw [hgp2] at hguard
              exact jsStrictEq_to_deepEq (by simpa [jsStrictEqOpt] using hguard)
        · rw [show cdEntry w k (vts a b) = some (vts a b) by
            simp [cdEntry, hguard]]
          exact ⟨vts a b, by simp [diffResultAt], by simp [isDeepEqual]⟩
    -- Assemble extensionally.
    apply isDeepEqual_vobj_of_ext (applyDiffF_dupFree hdupw) hndg1
    · intro k
      constructor
      · intro hkR
        by_contra hkg
        have hnone := hkeyNone k (lookupF_eq_none_iff.mpr hkg)
        have := lookupF_isSome_iff_mem.mpr hkR
        rw [hnone] at this
        simp at this
      · intro hkg
        have hsome := lookupF_isSome_iff_mem.mpr hkg
        cases hl : lookupF gfs k with
        | none => rw [hl] at hsome; simp at hsome
        | some gv =>
          obtain ⟨rv, hrv, _⟩ := hkeySome k gv hl
          exact lookupF_isSome_iff_mem.mp (by simp [hrv])
    · intro k v w2 hv hw2
      obtain ⟨rv, hrv, hde⟩ := hkeySome k w2 hw2
      rw [hv] at hrv
      obtain rfl : v = rv := by injection hrv
      exact hde

/-- The round-trip law for the source-level wrappers: applying
`computeDiff(from, to)` to (a clone of) `from` yields a value deep-equal
 to `to`. -/
theorem applyDiff_computeDiff_roundtrip {frm tfs : List (String × Value)}
    {now : Int × Int}
    (hndf : ndV (vobj frm) = true)
    (hndg : ndV (vobj tfs) = true) (hsfg : sfV (vobj tfs) = true)
    (hskg : skV (vobj tfs) = true) (hnng : nnV (vobj tfs) = true)
    (hneog : neoV (vobj tfs) = true) (hsff : sfF frm = true) :
    isDeepEqual (vobj (applyDiff now frm (computeDiff frm tfs))) (vobj tfs)
      = true := by
  rw [applyDiff, deepCloneF_id hsff, computeDiff]
  exact roundtripF_aux (sizeOf tfs) tfs (vobj frm) now le_rfl hndf hndg hsfg
    hskg hnng hneog
/-! ### Claim C8: the no-op diff law -/

/-- Claim C8, counterexample.  The claimed law, that
applyDiff(a, computeDiff(a, a)) equals a for every value a including
values with null-valued fields, fails for a value with a null-valued
top-level field: computeDiff maps a null target field to a deleteField
sentinel, so the self-diff of a value whose field k is null is a
deletion of k, and applying it erases the field.  The result is the
empty object, which is not equal, and not even deep-equal, to a. -/
theorem claim_C8_noop_diff_counterexample :
    computeDiff [("k", vnull)] [("k", vnull)] = [("k", vdel)] ∧
    applyDiff (0, 0) [("k", vnull)]
      (computeDiff [("k", vnull)] [("k", vnull)]) = [] ∧
    applyDiff (0, 0) [("k", vnull)]
      (computeDiff [("k", vnull)] [("k", vnull)]) ≠ [("k", vnull)] ∧
    isDeepEqual
      (vobj (applyDiff (0, 0) [("k", vnull)]
        (computeDiff [("k", vnull)] [("k", vnull)])))
      (vobj [("k", vnull)]) = false := by
  have h1 : computeDiff [("k", vnull)] [("k", vnull)] = [("k", vdel)] := by
    simp [computeDiff, computeDiffF, cdLoop1, cdLoop2, keysOf, keysF,
      getProp, lookupF, jsStrictEqOpt, jsStrictEq, deepEqOpt, isDeepEqual,
      setKey, defaultFrom]
  have h2 : applyDiff (0, 0) [("k", vnull)]
      (computeDiff [("k", vnull)] [("k", vnull)]) = [] := by
    rw [h1]
    simp [applyDiff, applyDiffF, deepCloneF, deepClone, eraseKey]
  refine ⟨h1, h2, ?_, ?_⟩
  · rw [h2]; simp
  · rw [h2]; simp [isDeepEqual, keysF]

/-- Claim C8, amended.  The no-op diff law does hold for every state
whose field list is sentinel-free, has hereditarily duplicate-free
keys, and has no null-valued object field at any depth: the self-diff
is empty, and applying it returns the state unchanged on the nose. -/
theorem claim_C8_noop_diff (now : Int × Int) (a : List (String × Value))
    (hsf : sfF a = true) (hdup : dupFree (keysF a) = true)
    (hndF : ndF a = true) (hnn : nnF a = true) :
    applyDiff now a (computeDiff a a) = a := by
  rw [computeDiff, computeDiffF_self hsf hdup hndF hnn, applyDiff,
    deepCloneF_id hsf]
  simp [applyDiffF]

/-- Claim C8 amended, witness: the no-op law at a concrete state with a
nested object field. -/
theorem claim_C8_noop_diff_witness :
    applyDiff (0, 0)
      [("name", vstr "Foo"), ("count", vint 5), ("b", vobj [("x", vint 1)])]
      (computeDiff
        [("name", vstr "Foo"), ("count", vint 5), ("b", vobj [("x", vint 1)])]
        [("name", vstr "Foo"), ("count", vint 5), ("b", vobj [("x", vint 1)])])
      = [("name", vstr "Foo"), ("count", vint 5), ("b", vobj [("x", vint 1)])] :=
  claim_C8_noop_diff (0, 0) _
    (by simp [sfF, sfV]) (by decide) (by simp [ndF, ndV, dupFree, keysF])
    (by simp [nnF, nnV])

/-! ### Claim C3: the undo law of the diff algebra -/

/-- Claim C3, counterexample.  The undo law fails for a value with an
empty-object field.  With a having field m set to the empty object and
b the empty object, computeDiff(a, b) deletes m, and applying it to a
gives the empty object; but computeUndoDiff(a, diff), which is
computeDiff of the empty object against a, is itself empty, because the
nested diff of the empty-object field m is empty and computeDiff omits
fields whose nested diff is empty.  Applying the empty undo diff leaves
the empty object, which differs from a. -/
theorem claim_C3_undo_law_counterexample :
    computeDiff [("m", vobj [])] [] = [("m", vdel)] ∧
    computeUndoDiff (0, 0) [("m", vobj [])]
      (computeDiff [("m", vobj [])] []) = [] ∧
    applyDiff (0, 0)
      (applyDiff (0, 0) [("m", vobj [])] (computeDiff [("m", vobj [])] []))
      (computeUndoDiff (0, 0) [("m", vobj [])]
        (computeDiff [("m", vobj [])] [])) = [] ∧
    applyDiff (0, 0)
      (applyDiff (0, 0) [("m", vobj [])] (computeDiff [("m", vobj [])] []))
      (computeUndoDiff (0, 0) [("m", vobj [])]
        (computeDiff [("m", vobj [])] [])) ≠ [("m", vobj [])] := by
  have h1 : computeDiff [("m", vobj [])] [] = [("m", vdel)] := by
    simp [computeDiff, computeDiffF, cdLoop1, cdLoop2, keysOf, keysF,
      getProp, lookupF, jsStrictEqOpt, jsStrictEq, deepEqOpt, isDeepEqual,
      setKey, defaultFrom]
  have h2 : applyDiff (0, 0) [("m", vobj [])] [("m", vdel)] = [] := by
    simp [applyDiff, applyDiffF, deepCloneF, deepClone, eraseKey]
  have h3 : computeUndoDiff (0, 0) [("m", vobj [])]
      (computeDiff [("m", vobj [])] []) = [] := by
    rw [computeUndoDiff, h1, h2]
    simp [computeDiff, computeDiffF, cdLoop1, cdLoop2, keysOf, keysF,
      getProp, lookupF, jsStrictEqOpt, jsStrictEq, deepEqOpt, isDeepEqual,
      setKey, defaultFrom]
  refine ⟨h1, h3, ?_, ?_⟩ <;> rw [h3, h1, h2]
  · simp [applyDiff, applyDiffF, deepCloneF]
  · simp [applyDiff, applyDiffF, deepCloneF]

/-- Claim C3, amended.  The undo law holds whenever the starting value a
is hereditarily well-formed for the algebra — duplicate-free safe keys,
no sentinels, no null-valued fields, no empty-object fields, at every
depth — and b is sentinel-free with hereditarily duplicate-free keys:
applying diff = computeDiff(a, b) to a and then computeUndoDiff(a, diff)
yields a value deep-equal to a. -/
theorem claim_C3_undo_law (now : Int × Int) (a b : List (String × Value))
    (ha1 : sfV (vobj a) = true) (ha2 : ndV (vobj a) = true)
    (ha3 : skV (vobj a) = true) (ha4 : nnV (vobj a) = true)
    (ha5 : neoV (vobj a) = true)
    (hb1 : sfV (vobj b) = true) (hb2 : ndV (vobj b) = true) :
    isDeepEqual
      (vobj (applyDiff now (applyDiff now a (computeDiff a b))
        (computeUndoDiff now a (computeDiff a b))))
      (vobj a) = true := by
  have ha1' : sfF a = true := by simpa [sfV] using ha1
  obtain ⟨hdupa, hndFa⟩ := ndV_vobj_elim ha2
  have hb1' : sfF b = true := by simpa [sfV] using hb1
  obtain ⟨hdupb, hndFb⟩ := ndV_vobj_elim hb2
  have hsd : sdDiffF (computeDiff a b) = true := by
    rw [computeDiff]; exact sdDiffF_computeDiffF hb1' hndFb
  have he : applyDiff now a (computeDiff a b)
      = applyDiffF now a (computeDiff a b) := by
    rw [applyDiff, deepCloneF_id ha1']
  obtain ⟨hsfe, hnde⟩ := applyDiffF_sf_nd ha1' hndFa hdupa hsd
  have hdupe : dupFree (keysF (applyDiffF now a (computeDiff a b))) = true :=
    applyDiffF_dupFree hdupa
  rw [computeUndoDiff, he]
  exact applyDiff_computeDiff_roundtrip
    (by simp only [ndV, Bool.and_eq_true]; exact ⟨hdupe, hnde⟩)
    ha2 ha1 ha3 ha4 ha5 hsfe

/-- Claim C3 amended, witness: the undo law at a concrete pair of
states, with the well-formedness side conditions evaluated. -/
theorem claim_C3_undo_law_witness :
    isDeepEqual
      (vobj (applyDiff (0, 0)
        (applyDiff (0, 0) [("name", vstr "Foo"), ("count", vint 5)]
          (computeDiff [("name", vstr "Foo"), ("count", vint 5)]
            [("name", vstr "Bar"), ("count", vint 10)]))
        (computeUndoDiff (0, 0) [("name", vstr "Foo"), ("count", vint 5)]
          (computeDiff [("name", vstr "Foo"), ("count", vint 5)]
            [("name", vstr "Bar"), ("count", vint 10)]))))
      (vobj [("name", vstr "Foo"), ("count", vint 5)]) = true :=
  claim_C3_undo_law (0, 0)
    [("name", vstr "Foo"), ("count", vint 5)]
    [("name", vstr "Bar"), ("count", vint 10)]
    (by simp [sfV, sfF]) (by simp [ndV, ndF, dupFree, keysF])
    (by simp [skV, skF, keysF]; decide) (by simp [nnV, nnF])
    (by simp [neoV, neoF])
    (by simp [sfV, sfF]) (by simp [ndV, ndF, dupFree, keysF])

/-! ### Claim C9: flattenDiff and unflattenDiff -/

/-- A key containing no dot. -/
def dotFree (k : String) : Bool := !(k.data.contains '.')

/-- The dotted path of key `k` under prefix `pre`; the source writes
`prefix ? prefix + '.' + key : key` (the empty string is falsy). -/
def pathStr (pre k : String) : String := if pre = "" then k else pre ++ "." ++ k

/-- `flattenDiff(diff, prefix)` from the source, with the result
dictionary threaded as the accumulator `acc`: the source builds each
recursive call's result as a fresh dictionary and merges it into the
caller's with `Object.assign`; since `Object.assign` copies the fresh
dictionary's entries in insertion order, and a JS property write keeps
the position of an existing key exactly as `setKey` does, writing each
entry directly into the caller's accumulator produces the same
dictionary.  Sentinels, arrays and Timestamps are kept whole at their
path, plain objects are flattened recursively, and all remaining
primitives (including null) are kept at their path, which is what the
two catch-all branches below do. -/
def fdAux : List (String × Value) → String → List (String × Value) →
    List (String × Value)
  | [], _, acc => acc
  | (k, .vobj fs) :: rest, pre, acc =>
      fdAux rest pre (fdAux fs (pathStr pre k) acc)
  | (k, v) :: rest, pre, acc => fdAux rest pre (setKey acc (pathStr pre k) v)

/-- `flattenDiff(diff)` with the default empty prefix. -/
def flattenDiff (diff : List (String × Value)) : List (String × Value) :=
  fdAux diff "" []

/-- `path.split('.')` at the character level.  Like the JS method it
never returns an empty list: the empty string splits to a list holding
the empty component. -/
def splitDotC : List Char → List (List Char)
  | [] => [[]]
  | c :: cs =>
      if c = '.' then [] :: splitDotC cs
      else
        match splitDotC cs with
        | p :: ps => (c :: p) :: ps
        | [] => [[c]]

/-- `path.split('.')`. -/
def splitDot (s : String) : List String := (splitDotC s.data).map String.mk

/-- One entry of `unflattenDiff`: walk the path parts, entering or
creating nested objects, and assign the value at the last part.  The
source replaces a missing intermediate, or one whose JS type is not
'object', with a fresh empty object, and enters an existing plain
object; on any other value whose JS type is 'object' — null, an array,
a Timestamp, a sentinel — it either throws (null) or writes a property
onto a non-plain value that this model cannot represent, and those
cases are modelled as failure. -/
def insertParts : List (String × Value) → List String → Value →
    Option (List (String × Value))
  | acc, [], _ => some acc
  | acc, [last], v => some (setKey acc last v)
  | acc, part :: rest, v =>
      match lookupF acc part with
      | some (.vobj fs) =>
          (insertParts fs rest v).map fun fs2 => setKey acc part (.vobj fs2)
      | some .vnull => none
      | some (.varr _) => none
      | some (.vts _ _) => none
      | some .vdel => none
      | some .vstamp => none
      | _ =>
          (insertParts ([] : List (String × Value)) rest v).map
            fun fs2 => setKey acc part (.vobj fs2)

/-- `unflattenDiff`'s loop over the flat entries, in order. -/
def ufAux : List (String × Value) → List (String × Value) →
    Option (List (String × Value))
  | acc, [] => some acc
  | acc, (path, v) :: rest =>
      match insertParts acc (splitDot path) v with
      | some acc2 => ufAux acc2 rest
      | none => none

/-- `unflattenDiff(flatDiff)`. -/
def unflattenDiff (flat : List (String × Value)) :
    Option (List (String × Value)) :=
  ufAux [] flat

mutual

/-- Diff well-formedness for the flatten round trip: every key at every
level is nonempty, dot-free and unrepeated among its siblings, and
every object value is nonempty. -/
def dfV : Value → Bool
  | .vobj fs => !fs.isEmpty && dfF fs
  | _ => true

/-- Field-list form of `dfV`. -/
def dfF : List (String × Value) → Bool
  | [] => true
  | (k, v) :: fs =>
      !k.data.isEmpty && dotFree k && !((keysF fs).contains k) &&
        dfV v && dfF fs

end

/-- The leaves of a diff as key-part paths: a plain-object field
contributes its own leaves under its key, every other field is a leaf.
-/
def leavesP : List (String × Value) → List (List String × Value)
  | [] => []
  | (k, .vobj fs) :: rest =>
      (leavesP fs).map (fun pv => (k :: pv.1, pv.2)) ++ leavesP rest
  | (k, v) :: rest => ([k], v) :: leavesP rest

/-- Join key parts with dots. -/
def joinParts : List String → String
  | [] => ""
  | [k] => k
  | k :: rest => k ++ "." ++ joinParts rest

/-- `unflattenDiff`'s loop, on part-level entries. -/
def ufAuxP : List (String × Value) → List (List String × Value) →
    Option (List (String × Value))
  | acc, [] => some acc
  | acc, (parts, v) :: rest =>
      match insertParts acc parts v with
      | some acc2 => ufAuxP acc2 rest
      | none => none

theorem setKey_eq_append {fs : List (String × Value)} {k : String} {v : Value}
    (h : k ∉ keysF fs) : setKey fs k v = fs ++ [(k, v)] := by
  induction fs with
  | nil => simp [setKey]
  | cons kv rest ih =>
    obtain ⟨k', w⟩ := kv
    simp only [keysF_cons, List.mem_cons, not_or] at h
    simp [setKey, Ne.symm h.1, ih h.2]

theorem setKey_setKey_self {fs : List (String × Value)} {k : String}
    {v w : Value} : setKey (setKey fs k v) k w = setKey fs k w := by
  induction fs with
  | nil => simp [setKey]
  | cons kv rest ih =>
    obtain ⟨k', u⟩ := kv
    by_cases h : k' = k <;> simp [setKey, h, ih]

theorem dotFree_iff {k : String} :
    dotFree k = true ↔ ∀ c ∈ k.data, c ≠ '.' := by
  simp only [dotFree, Bool.not_eq_true', ← Bool.not_eq_true]
  constructor
  · intro h c hc hcdot
    subst hcdot
    exact absurd (List.elem_iff.mpr hc) (by simpa using h)
  · intro h hcon
    exact absurd (List.elem_iff.mp (by simpa using hcon)) (fun hm => h _ hm rfl)

theorem data_append (a b : String) : (a ++ b).data = a.data ++ b.data :=
  String.data_append a b

theorem splitDotC_ne_nil (cs : List Char) : splitDotC cs ≠ [] := by
  induction cs with
  | nil => simp [splitDotC]
  | cons c cs ih =>
    by_cases h : c = '.'
    · simp [splitDotC, h]
    · simp only [splitDotC, if_neg h]
      cases hs : splitDotC cs with
      | nil => exact absurd hs ih
      | cons p ps => simp

theorem splitDotC_dotfree {cs : List Char} (h : ∀ c ∈ cs, c ≠ '.') :
    splitDotC cs = [cs] := by
  induction cs with
  | nil => rfl
  | cons c cs ih =>
    have hc : c ≠ '.' := h c (by simp)
    have ih2 := ih (fun x hx => h x (by simp [hx]))
    simp [splitDotC, hc, ih2]

theorem splitDotC_append_dot {cs ds : List Char} (h : ∀ c ∈ cs, c ≠ '.') :
    splitDotC (cs ++ '.' :: ds) = cs :: splitDotC ds := by
  induction cs with
  | nil => simp [splitDotC]
  | cons c cs ih =>
    have hc : c ≠ '.' := h c (by simp)
    have ih2 := ih (fun x hx => h x (by simp [hx]))
    simp [splitDotC, hc, ih2]

theorem joinParts_append_singleton {P : List String} {k : String}
    (h : P ≠ []) : joinParts (P ++ [k]) = joinParts P ++ "." ++ k := by
  induction P with
  | nil => exact absurd rfl h
  | cons p rest ih =>
    cases rest with
    | nil => simp [joinParts]
    | cons q qs =>
      have ih2 := ih (by simp)
      rw [List.cons_append] at ih2
      simp only [List.cons_append, joinParts, List.append_eq]
      rw [ih2]
      simp [String.append_assoc]

theorem joinParts_data_cons {k : String} {rest : List String} (h : rest ≠ []) :
    (joinParts (k :: rest)).data = k.data ++ '.' :: (joinParts rest).data := by
  cases rest with
  | nil => exact absurd rfl h
  | cons q qs =>
    show (k ++ "." ++ joinParts (q :: qs)).data = _
    rw [data_append, data_append]
    simp

theorem splitDot_joinParts {L : List String} (hne : L ≠ [])
    (hdf : ∀ p ∈ L, dotFree p = true) : splitDot (joinParts L) = L := by
  induction L with
  | nil => exact absurd rfl hne
  | cons k rest ih =>
    cases hr : rest with
    | nil =>
      show (splitDotC (joinParts [k]).data).map String.mk = [k]
      have : joinParts [k] = k := rfl
      rw [this, splitDotC_dotfree (dotFree_iff.mp (hdf k (by simp)))]
      simp
    | cons q qs =>
      subst hr
      have hne2 : q :: qs ≠ [] := by simp
      have ih2 := ih hne2 (fun p hp => hdf p (by simp [hp]))
      show (splitDotC (joinParts (k :: q :: qs)).data).map String.mk = _
      rw [joinParts_data_cons hne2,
        splitDotC_append_dot (dotFree_iff.mp (hdf k (by simp)))]
      simp only [List.map_cons]
      rw [show String.mk k.data = k from rfl]
      exact congrArg (fun l => k :: l) ih2

theorem joinParts_inj {L1 L2 : List String} (h1 : L1 ≠ []) (h2 : L2 ≠ [])
    (hd1 : ∀ p ∈ L1, dotFree p = true) (hd2 : ∀ p ∈ L2, dotFree p = true)
    (he : joinParts L1 = joinParts L2) : L1 = L2 := by
  have := splitDot_joinParts h1 hd1
  rw [he, splitDot_joinParts h2 hd2] at this
  exact this.symm

theorem joinParts_ne_empty {P : List String} (hne : P ≠ [])
    (h : ∀ p ∈ P, p.data ≠ []) : joinParts P ≠ "" := by
  cases P with
  | nil => exact absurd rfl hne
  | cons k rest =>
    intro hc
    cases hr : rest with
    | nil =>
      subst hr
      have : joinParts [k] = k := rfl
      rw [this] at hc
      exact h k (by simp) (by rw [hc])
    | cons q qs =>
      subst hr
      have hd := congrArg String.data hc
      rw [joinParts_data_cons (by simp)] at hd
      simp at hd

theorem pathStr_joinParts {P : List String} {k : String}
    (h : ∀ p ∈ P, p.data ≠ []) :
    pathStr (joinParts P) k = joinParts (P ++ [k]) := by
  cases hP : P with
  | nil => simp [pathStr, joinParts]
  | cons q qs =>
    subst hP
    rw [pathStr, if_neg (joinParts_ne_empty (by simp) h),
      joinParts_append_singleton (by simp)]

theorem dfF_cons_elim {k : String} {v : Value} {fs : List (String × Value)}
    (h : dfF ((k, v) :: fs) = true) :
    k.data ≠ [] ∧ dotFree k = true ∧ k ∉ keysF fs ∧ dfV v = true ∧
      dfF fs = true := by
  simp only [dfF, Bool.and_eq_true, Bool.not_eq_true'] at h
  obtain ⟨⟨⟨⟨h1, h2⟩, h3⟩, h4⟩, h5⟩ := h
  refine ⟨?_, h2, ?_, h4, h5⟩
  · simpa using h1
  · intro hc
    rw [containsIffMem.mpr hc] at h3
    cases h3

theorem dfV_vobj_elim {fs : List (String × Value)}
    (h : dfV (vobj fs) = true) : fs ≠ [] ∧ dfF fs = true := by
  simp only [dfV, Bool.and_eq_true, Bool.not_eq_true'] at h
  exact ⟨by simpa using h.1, h.2⟩

theorem leavesP_mem_aux :
    ∀ (n : Nat) (d : List (String × Value)), sizeOf d ≤ n →
      dfF d = true → ∀ pv ∈ leavesP d,
        (pv.1 ≠ [] ∧ ∀ c ∈ pv.1, c.data ≠ [] ∧ dotFree c = true) ∧
        ∃ k t, pv.1 = k :: t ∧ k ∈ keysF d := by
  intro n
  induction n with
  | zero =>
    intro d hsz _ pv hpv
    cases d with
    | nil => simp [leavesP] at hpv
    | cons kv rest => simp only [List.cons.sizeOf_spec] at hsz; omega
  | succ n ih =>
    intro d hsz hdf pv hpv
    cases d with
    | nil => simp [leavesP] at hpv
    | cons kv rest =>
      obtain ⟨k, v⟩ := kv
      obtain ⟨hk1, hk2, hk3, hk4, hk5⟩ := dfF_cons_elim hdf
      have hszr : sizeOf rest ≤ n := by
        simp only [List.cons.sizeOf_spec] at hsz
        have h1 : 1 ≤ sizeOf (k, v) := by
          simp only [Prod.mk.sizeOf_spec]; omega
        omega
      cases v
      case vobj fs =>
        have hszf : sizeOf fs ≤ n := by
          simp only [List.cons.sizeOf_spec, Prod.mk.sizeOf_spec,
            Value.vobj.sizeOf_spec] at hsz
          omega
        have hdfs : dfF fs = true := (dfV_vobj_elim hk4).2
        simp only [leavesP, List.mem_append, List.mem_map] at hpv
        rcases hpv with ⟨qv, hqv, rfl⟩ | hpv
        · obtain ⟨⟨hq1, hq2⟩, q0, t0, hqeq, hq0mem⟩ := ih fs hszf hdfs qv hqv
          refine ⟨⟨by simp, ?_⟩, k, qv.1, rfl, by simp⟩
          intro c hc
          simp only [List.mem_cons] at hc
          rcases hc with rfl | hc
          · exact ⟨hk1, hk2⟩
          · exact hq2 c hc
        · obtain ⟨⟨hp1, hp2⟩, q0, t0, hqeq, hq0⟩ := ih rest hszr hk5 pv hpv
          refine ⟨⟨hp1, hp2⟩, q0, t0, hqeq, ?_⟩
          simp only [keysF_cons, List.mem_cons]
          exact Or.inr hq0
      all_goals
        simp only [leavesP, List.mem_cons] at hpv
      all_goals
        rcases hpv with rfl | hpv
        · refine ⟨⟨by simp, ?_⟩, k, [], rfl, by simp⟩
          intro c hc
          simp only [List.mem_singleton] at hc
          subst hc
          exact ⟨hk1, hk2⟩
        · obtain ⟨⟨hp1, hp2⟩, q0, t0, hqeq, hq0⟩ := ih rest hszr hk5 pv hpv
          refine ⟨⟨hp1, hp2⟩, q0, t0, hqeq, ?_⟩
          simp only [keysF_cons, List.mem_cons]
          exact Or.inr hq0

theorem leavesP_mem {d : List (String × Value)} (hdf : dfF d = true)
    {pv : List String × Value} (hpv : pv ∈ leavesP d) :
    (pv.1 ≠ [] ∧ ∀ c ∈ pv.1, c.data ≠ [] ∧ dotFree c = true) ∧
      ∃ k t, pv.1 = k :: t ∧ k ∈ keysF d :=
  leavesP_mem_aux (sizeOf d) d le_rfl hdf pv hpv

theorem keysF_append {fs gs : List (String × Value)} :
    keysF (fs ++ gs) = keysF fs ++ keysF gs := List.map_append _ _ _

theorem leavesP_pairwise_aux :
    ∀ (n : Nat) (d : List (String × Value)), sizeOf d ≤ n →
      dfF d = true →
      (leavesP d).Pairwise (fun a b => a.1 ≠ b.1) := by
  intro n
  induction n with
  | zero =>
    intro d hsz _
    cases d with
    | nil => simp [leavesP]
    | cons kv rest => simp only [List.cons.sizeOf_spec] at hsz; omega
  | succ n ih =>
    intro d hsz hdf
    cases d with
    | nil => simp [leavesP]
    | cons kv rest =>
      obtain ⟨k, v⟩ := kv
      obtain ⟨hk1, hk2, hk3, hk4, hk5⟩ := dfF_cons_elim hdf
      have hszr : sizeOf rest ≤ n := by
        simp only [List.cons.sizeOf_spec] at hsz
        have h1 : 1 ≤ sizeOf (k, v) := by
          simp only [Prod.mk.sizeOf_spec]; omega
        omega
      cases v
      case vobj fs =>
        have hszf : sizeOf fs ≤ n := by
          simp only [List.cons.sizeOf_spec, Prod.mk.sizeOf_spec,
            Value.vobj.sizeOf_spec] at hsz
          omega
        have hdfs : dfF fs = true := (dfV_vobj_elim hk4).2
        simp only [leavesP, List.pairwise_append]
        refine ⟨?_, ih rest hszr hk5, ?_⟩
        · rw [List.pairwise_map]
          exact (ih fs hszf hdfs).imp (by intro a b hab; simpa using hab)
        · intro a ha b hb
          simp only [List.mem_map] at ha
          obtain ⟨qa, _, rfl⟩ := ha
          obtain ⟨_, q0, t0, hq, hq0⟩ := leavesP_mem hk5 hb
          simp only [hq]
          intro hc
          have : k = q0 := by
            have := congrArg (fun l => l.head?) hc
            simpa using this
          exact hk3 (this ▸ hq0)
      all_goals
        simp only [leavesP]
        refine List.Pairwise.cons ?_ (ih rest hszr hk5)
        intro b hb
        obtain ⟨_, q0, t0, hq, hq0⟩ := leavesP_mem hk5 hb
        simp only [hq]
        intro hc
        have : k = q0 := by
          have := congrArg (fun l => l.head?) hc
          simpa using this
        exact hk3 (this ▸ hq0)

theorem leavesP_pairwise {d : List (String × Value)} (hdf : dfF d = true) :
    (leavesP d).Pairwise (fun a b => a.1 ≠ b.1) :=
  leavesP_pairwise_aux (sizeOf d) d le_rfl hdf

theorem leavesP_ne_nil_aux :
    ∀ (n : Nat) (d : List (String × Value)), sizeOf d ≤ n →
      dfF d = true → d ≠ [] → leavesP d ≠ [] := by
  intro n
  induction n with
  | zero =>
    intro d hsz _ hne
    cases d with
    | nil => exact absurd rfl hne
    | cons kv rest => simp only [List.cons.sizeOf_spec] at hsz; omega
  | succ n ih =>
    intro d hsz hdf hne
    cases d with
    | nil => exact absurd rfl hne
    | cons kv rest =>
      obtain ⟨k, v⟩ := kv
      obtain ⟨hk1, hk2, hk3, hk4, hk5⟩ := dfF_cons_elim hdf
      cases v
      case vobj fs =>
        have hszf : sizeOf fs ≤ n := by
          simp only [List.cons.sizeOf_spec, Prod.mk.sizeOf_spec,
            Value.vobj.sizeOf_spec] at hsz
          omega
        obtain ⟨hfne, hdfs⟩ := dfV_vobj_elim hk4
        have : leavesP fs ≠ [] := ih fs hszf hdfs hfne
        simp only [leavesP]
        intro hc
        rw [List.append_eq_nil] at hc
        exact this (List.map_eq_nil.mp hc.1)
      all_goals simp [leavesP]

theorem leavesP_ne_nil {d : List (String × Value)} (hdf : dfF d = true)
    (hne : d ≠ []) : leavesP d ≠ [] :=
  leavesP_ne_nil_aux (sizeOf d) d le_rfl hdf hne

/-- The flat entries `flattenDiff` produces for `d` under prefix parts
`P`: one entry per leaf, keyed by the dotted path. -/
def emitP (P : List String) (d : List (String × Value)) :
    List (String × Value) :=
  (leavesP d).map (fun pv => (joinParts (P ++ pv.1), pv.2))

theorem emitP_cons_obj {P : List String} {k : String}
    {fs rest : List (String × Value)} :
    emitP P ((k, vobj fs) :: rest) = emitP (P ++ [k]) fs ++ emitP P rest := by
  simp only [emitP, leavesP, List.map_append, List.map_map]
  congr 1
  apply List.map_congr_left
  intro pv _
  simp [List.append_assoc]

theorem fdAux_eq_aux :
    ∀ (n : Nat) (d : List (String × Value)) (P : List String)
      (acc : List (String × Value)), sizeOf d ≤ n → dfF d = true →
      (∀ p ∈ P, p.data ≠ []) →
      fdAux d (joinParts P) acc =
        (emitP P d).foldl (fun a kv => setKey a kv.1 kv.2) acc := by
  intro n
  induction n with
  | zero =>
    intro d P acc hsz _ _
    cases d with
    | nil => simp [fdAux, emitP, leavesP]
    | cons kv rest => simp only [List.cons.sizeOf_spec] at hsz; omega
  | succ n ih =>
    intro d P acc hsz hdf hP
    cases d with
    | nil => simp [fdAux, emitP, leavesP]
    | cons kv rest =>
      obtain ⟨k, v⟩ := kv
      obtain ⟨hk1, hk2, hk3, hk4, hk5⟩ := dfF_cons_elim hdf
      have hszr : sizeOf rest ≤ n := by
        simp only [List.cons.sizeOf_spec] at hsz
        have h1 : 1 ≤ sizeOf (k, v) := by
          simp only [Prod.mk.sizeOf_spec]; omega
        omega
      have hPk : ∀ p ∈ P ++ [k], p.data ≠ [] := by
        intro p hp
        rcases List.mem_append.mp hp with hp | hp
        · exact hP p hp
        · simp only [List.mem_singleton] at hp; subst hp; exact hk1
      cases v
      case vobj fs =>
        have hszf : sizeOf fs ≤ n := by
          simp only [List.cons.sizeOf_spec, Prod.mk.sizeOf_spec,
            Value.vobj.sizeOf_spec] at hsz
          omega
        have hdfs : dfF fs = true := (dfV_vobj_elim hk4).2
        simp only [fdAux]
        rw [pathStr_joinParts hP, ih fs (P ++ [k]) acc hszf hdfs hPk,
          ih rest P _ hszr hk5 hP, emitP_cons_obj, List.foldl_append]
      all_goals
        simp only [fdAux, emitP, leavesP, List.map_cons, List.foldl_cons]
        rw [pathStr_joinParts hP]
        exact ih rest P _ hszr hk5 hP

theorem fdAux_eq {d : List (String × Value)} {P : List String}
    {acc : List (String × Value)} (hdf : dfF d = true)
    (hP : ∀ p ∈ P, p.data ≠ []) :
    fdAux d (joinParts P) acc =
      (emitP P d).foldl (fun a kv => setKey a kv.1 kv.2) acc :=
  fdAux_eq_aux (sizeOf d) d P acc le_rfl hdf hP

theorem foldl_setKey_append :
    ∀ (l acc : List (String × Value)), (keysF (acc ++ l)).Nodup →
      l.foldl (fun a kv => setKey a kv.1 kv.2) acc = acc ++ l := by
  intro l
  induction l with
  | nil => intro acc _; simp
  | cons kv rest ih =>
    intro acc hnd
    obtain ⟨k, v⟩ := kv
    rw [keysF_append] at hnd
    have hkacc : k ∉ keysF acc := by
      intro hc
      rcases List.nodup_append.mp hnd with ⟨_, _, hdisj⟩
      exact hdisj hc (by simp [keysF])
    have hstep : setKey acc k v = acc ++ [(k, v)] := setKey_eq_append hkacc
    simp only [List.foldl_cons]
    rw [hstep, ih (acc ++ [(k, v)]) ?_]
    · simp
    · rw [keysF_append]
      have : keysF acc ++ keysF ((k, v) :: rest)
          = (keysF acc ++ keysF [(k, v)]) ++ keysF rest := by
        simp [keysF]
      rw [this] at hnd
      simpa [keysF] using hnd

theorem emitP_keys_nodup {d : List (String × Value)} (hdf : dfF d = true) :
    (keysF (emitP [] d)).Nodup := by
  have hkeys : keysF (emitP [] d)
      = (leavesP d).map (fun pv => joinParts pv.1) := by
    simp [emitP, keysF, List.map_map, Function.comp]
  have hstrong : (leavesP d).Pairwise
      (fun a b => joinParts a.1 ≠ joinParts b.1) := by
    refine List.Pairwise.imp_of_mem ?_ (leavesP_pairwise hdf)
    intro a b ha hb hne hc
    obtain ⟨⟨ha1, ha2⟩, _⟩ := leavesP_mem hdf ha
    obtain ⟨⟨hb1, hb2⟩, _⟩ := leavesP_mem hdf hb
    exact hne (joinParts_inj ha1 hb1 (fun p hp => (ha2 p hp).2)
      (fun p hp => (hb2 p hp).2) hc)
  rw [hkeys]
  exact (List.pairwise_map).mpr hstrong

theorem insertParts_single {acc : List (String × Value)} {k : String}
    {v : Value} : insertParts acc [k] v = some (setKey acc k v) := by
  simp [insertParts]

theorem insertParts_cons_none {acc : List (String × Value)} {part : String}
    {rest : List String} {v : Value} (hr : rest ≠ [])
    (h : lookupF acc part = none) :
    insertParts acc (part :: rest) v =
      (insertParts [] rest v).map fun fs2 => setKey acc part (vobj fs2) := by
  cases rest with
  | nil => exact absurd rfl hr
  | cons r rs => simp [insertParts, h]

theorem insertParts_cons_obj {acc fs : List (String × Value)} {part : String}
    {rest : List String} {v : Value} (hr : rest ≠ [])
    (h : lookupF acc part = some (vobj fs)) :
    insertParts acc (part :: rest) v =
      (insertParts fs rest v).map fun fs2 => setKey acc part (vobj fs2) := by
  cases rest with
  | nil => exact absurd rfl hr
  | cons r rs => simp [insertParts, h]

theorem ufAuxP_append {l1 l2 : List (List String × Value)}
    {acc : List (String × Value)} :
    ufAuxP acc (l1 ++ l2) =
      match ufAuxP acc l1 with
      | some a => ufAuxP a l2
      | none => none := by
  induction l1 generalizing acc with
  | nil => simp [ufAuxP]
  | cons pv rest ih =>
    obtain ⟨parts, v⟩ := pv
    simp only [List.cons_append, ufAuxP]
    cases insertParts acc parts v with
    | none => rfl
    | some a2 => exact ih

theorem ufAuxP_prefixed :
    ∀ (lvs : List (List String × Value)) (acc inner : List (String × Value))
      (k : String), lvs ≠ [] → (∀ pv ∈ lvs, pv.1 ≠ []) →
      (lookupF acc k = none ∧ inner = [] ∨
        lookupF acc k = some (vobj inner)) →
      ufAuxP acc (lvs.map (fun pv => (k :: pv.1, pv.2))) =
        (ufAuxP inner lvs).map fun fs2 => setKey acc k (vobj fs2) := by
  intro lvs
  induction lvs with
  | nil => intro acc inner k hne _ _; exact absurd rfl hne
  | cons pv rest ih =>
    intro acc inner k _ hps hlk
    obtain ⟨parts, v⟩ := pv
    have hpne : parts ≠ [] := (hps (parts, v) (by simp))
    have hstep : insertParts acc (k :: parts) v =
        (insertParts inner parts v).map fun fs2 => setKey acc k (vobj fs2) := by
      rcases hlk with ⟨hnone, rfl⟩ | hobj
      · exact insertParts_cons_none hpne hnone
      · exact insertParts_cons_obj hpne hobj
    simp only [List.map_cons, ufAuxP]
    rw [hstep]
    cases hi : insertParts inner parts v with
    | none => simp
    | some inner1 =>
      simp only [Option.map_some']
      cases rest with
      | nil => simp [ufAuxP]
      | cons q qs =>
        rw [ih (setKey acc k (vobj inner1)) inner1 k (by simp)
          (fun pv2 hpv2 => hps pv2 (by simp [List.mem_cons] at hpv2 ⊢
                                       tauto))
          (Or.inr lookupF_setKey_self)]
        cases ufAuxP inner1 (q :: qs) with
        | none => simp
        | some final => simp [setKey_setKey_self]

theorem insert_leaves_aux :
    ∀ (n : Nat) (d acc : List (String × Value)), sizeOf d ≤ n →
      dfF d = true → (∀ k ∈ keysF d, k ∉ keysF acc) →
      ufAuxP acc (leavesP d) = some (acc ++ d) := by
  intro n
  induction n with
  | zero =>
    intro d acc hsz _ _
    cases d with
    | nil => simp [leavesP, ufAuxP]
    | cons kv rest => simp only [List.cons.sizeOf_spec] at hsz; omega
  | succ n ih =>
    intro d acc hsz hdf hfresh
    cases d with
    | nil => simp [leavesP, ufAuxP]
    | cons kv rest =>
      obtain ⟨k, v⟩ := kv
      obtain ⟨hk1, hk2, hk3, hk4, hk5⟩ := dfF_cons_elim hdf
      have hszr : sizeOf rest ≤ n := by
        simp only [List.cons.sizeOf_spec] at hsz
        have h1 : 1 ≤ sizeOf (k, v) := by
          simp only [Prod.mk.sizeOf_spec]; omega
        omega
      have hkacc : k ∉ keysF acc := hfresh k (by simp)
      have hfresh2 : ∀ k2 ∈ keysF rest, k2 ∉ keysF (acc ++ [(k, v)]) := by
        intro k2 hk2r
        rw [keysF_append]
        intro hc
        rcases List.mem_append.mp hc with hc | hc
        · exact hfresh k2 (by simp [hk2r]) hc
        · simp only [keysF, List.map_cons, List.map_nil,
            List.mem_singleton] at hc
          subst hc
          exact hk3 hk2r
      cases v
      case vobj fs =>
        have hszf : sizeOf fs ≤ n := by
          simp only [List.cons.sizeOf_spec, Prod.mk.sizeOf_spec,
            Value.vobj.sizeOf_spec] at hsz
          omega
        obtain ⟨hfne, hdfs⟩ := dfV_vobj_elim hk4
        have hlne : leavesP fs ≠ [] := leavesP_ne_nil hdfs hfne
        have hps : ∀ pv ∈ leavesP fs, pv.1 ≠ [] :=
          fun pv hpv => ((leavesP_mem hdfs hpv).1).1
        have hknone : lookupF acc k = none := lookupF_eq_none_iff.mpr hkacc
        simp only [leavesP]
        rw [ufAuxP_append,
          ufAuxP_prefixed (leavesP fs) acc [] k hlne hps
            (Or.inl ⟨hknone, rfl⟩),
          ih fs [] hszf hdfs (by simp [keysF])]
        simp only [List.nil_append, Option.map_some']
        rw [setKey_eq_append hkacc,
          ih rest (acc ++ [(k, vobj fs)]) hszr hk5 (hfresh2)]
        simp
      all_goals
        simp only [leavesP, ufAuxP, insertParts]
        rw [setKey_eq_append hkacc,
          ih rest (acc ++ [(k, _)]) hszr hk5 (hfresh2)]
        simp

theorem insert_leaves {d acc : List (String × Value)} (hdf : dfF d = true)
    (hfresh : ∀ k ∈ keysF d, k ∉ keysF acc) :
    ufAuxP acc (leavesP d) = some (acc ++ d) :=
  insert_leaves_aux (sizeOf d) d acc le_rfl hdf hfresh

theorem ufAux_map_join :
    ∀ (lvs : List (List String × Value)) (acc : List (String × Value)),
      (∀ pv ∈ lvs, pv.1 ≠ [] ∧ ∀ c ∈ pv.1, dotFree c = true) →
      ufAux acc (lvs.map (fun pv => (joinParts pv.1, pv.2))) =
        ufAuxP acc lvs := by
  intro lvs
  induction lvs with
  | nil => intro acc _; simp [ufAux, ufAuxP]
  | cons pv rest ih =>
    intro acc hgood
    obtain ⟨parts, v⟩ := pv
    obtain ⟨hpne, hpdf⟩ := hgood (parts, v) (by simp)
    simp only [List.map_cons, ufAux, ufAuxP]
    rw [splitDot_joinParts hpne hpdf]
    cases insertParts acc parts v with
    | none => rfl
    | some acc2 => exact ih acc2 (fun pv2 hpv2 => hgood pv2 (by simp [hpv2]))

/-- Claim C9, counterexample.  The flatten/unflatten round trip fails
for a diff containing an empty nested object, a case the claim
explicitly includes: flattenDiff walks into the empty object and emits
nothing for it, so the flat diff is empty, and unflattening the empty
flat diff yields the empty diff, not the original. -/
theorem claim_C9_flatten_roundtrip_counterexample :
    flattenDiff [("a", vobj [])] = [] ∧
    unflattenDiff (flattenDiff [("a", vobj [])]) = some [] ∧
    some ([] : List (String × Value)) ≠ some [("a", vobj [])] := by
  refine ⟨?_, ?_, by simp⟩
  · simp [flattenDiff, fdAux]
  · simp [flattenDiff, fdAux, unflattenDiff, ufAux]

/-- Claim C9, amended.  The flatten/unflatten round trip holds for
every diff whose keys are hereditarily nonempty, dot-free and
unrepeated among their siblings, and whose object values are all
nonempty: unflattening the flattened diff reproduces the diff exactly,
arrays, Timestamps and sentinels included. -/
theorem claim_C9_flatten_roundtrip (d : List (String × Value))
    (hdf : dfF d = true) :
    unflattenDiff (flattenDiff d) = some d := by
  have h1 : flattenDiff d = emitP [] d := by
    rw [flattenDiff, show ("" : String) = joinParts [] from rfl,
      fdAux_eq hdf (by simp)]
    have h0 := foldl_setKey_append (emitP [] d) []
      (by simpa using emitP_keys_nodup hdf)
    simpa using h0
  have h2 : emitP [] d
      = (leavesP d).map (fun pv => (joinParts pv.1, pv.2)) := by
    simp [emitP]
  rw [h1, unflattenDiff, h2,
    ufAux_map_join (leavesP d) []
      (fun pv hpv => ⟨(leavesP_mem hdf hpv).1.1,
        fun c hc => ((leavesP_mem hdf hpv).1.2 c hc).2⟩),
    insert_leaves hdf (by simp [keysF])]
  simp

/-- Claim C9 amended, witness: the round trip at the source
documentation's own example diff. -/
theorem claim_C9_flatten_roundtrip_witness :
    unflattenDiff (flattenDiff
      [("building", vobj [("floors", vint 5), ("height", vint 100)]),
       ("name", vstr "Test")])
      = some [("building", vobj [("floors", vint 5), ("height", vint 100)]),
              ("name", vstr "Test")] :=
  claim_C9_flatten_roundtrip _ (by simp [dfF, dfV, keysF]; decide)

end Value

namespace Undo

/-- An entry of the undo manager.  The `undo` and `redo` closures are
opaque async procedures; they are modelled by the trace of primitive
effects (numbered) that running them executes, so composing two
closures in sequence is concatenation of their traces. -/
structure UndoAction where
  undo : List Nat
  redo : List Nat
  groupId : Option String := none
  path : Option String := none
  description : Option String := none
deriving DecidableEq

/-- The undo manager's mutable state: `maxLength` from the
configuration (default 20), and the two stacks, with the top at the
end of the list exactly as the source pushes and pops at the array
end and evicts with `shift()` at the front. -/
structure UMState where
  maxLength : Nat
  undoStack : List UndoAction
  redoStack : List UndoAction
deriving DecidableEq

/-- JS truthiness of `action.groupId`: a defined, nonempty string. -/
def groupTruthy : Option String → Bool
  | some g => !g.data.isEmpty
  | none => false

/-- The merged entry `push` builds when grouping: its undo runs the
previous entry's undo and then the new action's undo; its redo runs
the new action's redo and then the previous entry's redo. -/
def mergedAction (last a : UndoAction) : UndoAction :=
  { undo := last.undo ++ a.undo,
    redo := a.redo ++ last.redo,
    groupId := a.groupId,
    path := a.path.or last.path,
    description := a.description.or last.description }

/-- The non-merging tail of `push`: append the action, evict the
oldest entry if over capacity, clear the redo stack. -/
def pushPlain (s : UMState) (a : UndoAction) : UMState :=
  { s with
    undoStack :=
      if s.maxLength < (s.undoStack ++ [a]).length
      then (s.undoStack ++ [a]).drop 1
      else s.undoStack ++ [a],
    redoStack := [] }

/-- `push(action)`: merge with the top entry when the action has a
truthy groupId equal to the top's, else push plainly; both branches
clear the redo stack. -/
def push (s : UMState) (a : UndoAction) : UMState :=
  match s.undoStack.getLast? with
  | some last =>
      if groupTruthy a.groupId && (last.groupId == a.groupId) then
        { s with
          undoStack := s.undoStack.dropLast ++ [mergedAction last a],
          redoStack := [] }
      else pushPlain s a
  | none => pushPlain s a

/-- A successful `undo()`: pop the top entry, run its undo procedure
(the returned trace), push the entry onto the redo stack.  On an empty
stack the call returns without effect.  The optional navigation
callback has no bearing on the stacks and is not modelled. -/
def undoStep (s : UMState) : UMState × List Nat :=
  match s.undoStack.getLast? with
  | none => (s, [])
  | some action =>
      ({ s with undoStack := s.undoStack.dropLast,
                redoStack := s.redoStack ++ [action] }, action.undo)

/-- A successful `redo()`: pop the redo top, run its redo procedure,
push it onto the undo stack and evict the oldest undo entry if over
capacity. -/
def redoStep (s : UMState) : UMState × List Nat :=
  match s.redoStack.getLast? with
  | none => (s, [])
  | some action =>
      ({ s with
         undoStack :=
           if s.maxLength < (s.undoStack ++ [action]).length
           then (s.undoStack ++ [action]).drop 1
           else s.undoStack ++ [action],
         redoStack := s.redoStack.dropLast }, action.redo)

/-- `clear()`. -/
def clearStep (s : UMState) : UMState :=
  { s with undoStack := [], redoStack := [] }

/-- One operation on the undo manager.  A failing `undo()` pops the
entry, catches the error, pushes the entry back where it was and
rethrows, leaving both stacks as they were, and likewise for a failing
`redo()`; both are therefore the identity on the state. -/
inductive UMOp where
  | push (a : UndoAction)
  | undoOp
  | undoFailOp
  | redoOp
  | redoFailOp
  | clearOp
deriving DecidableEq

/-- The state transition of one operation. -/
def step (s : UMState) (op : UMOp) : UMState :=
  match op with
  | .push a => push s a
  | .undoOp => (undoStep s).1
  | .undoFailOp => s
  | .redoOp => (redoStep s).1
  | .redoFailOp => s
  | .clearOp => clearStep s

/-- Run a sequence of operations. -/
def runOps (s : UMState) (ops : List UMOp) : UMState := ops.foldl step s

/-- A plain numbered action without a group. -/
def actN (i : Nat) : UndoAction := { undo := [i], redo := [i + 10] }

theorem push_maxLength {s : UMState} {a : UndoAction} :
    (push s a).maxLength = s.maxLength := by
  rw [push]
  cases s.undoStack.getLast? with
  | none => rfl
  | some last =>
    by_cases h : (groupTruthy a.groupId && (last.groupId == a.groupId)) = true
    · simp [h]
    · simp [h, pushPlain]

theorem step_maxLength {s : UMState} {op : UMOp} :
    (step s op).maxLength = s.maxLength := by
  cases op with
  | push a => exact push_maxLength
  | undoOp =>
    show (undoStep s).1.maxLength = s.maxLength
    rw [undoStep]
    cases s.undoStack.getLast? <;> rfl
  | redoOp =>
    show (redoStep s).1.maxLength = s.maxLength
    rw [redoStep]
    cases s.redoStack.getLast? <;> rfl
  | clearOp => rfl
  | undoFailOp => rfl
  | redoFailOp => rfl

theorem pushPlain_cap {s : UMState} {a : UndoAction}
    (h : s.undoStack.length ≤ s.maxLength) :
    (pushPlain s a).undoStack.length ≤ s.maxLength := by
  simp only [pushPlain]
  split
  · simp only [List.length_drop, List.length_append, List.length_singleton]
    omega
  · next hge =>
    simp only [List.length_append, List.length_singleton] at hge ⊢
    omega

theorem step_cap {s : UMState} {op : UMOp}
    (h : s.undoStack.length ≤ s.maxLength) :
    (step s op).undoStack.length ≤ s.maxLength := by
  cases op with
  | push a =>
    show (push s a).undoStack.length ≤ s.maxLength
    rw [push]
    cases hl : s.undoStack.getLast? with
    | none => exact pushPlain_cap h
    | some last =>
      by_cases hc : (groupTruthy a.groupId && (last.groupId == a.groupId))
          = true
      · have hne : s.undoStack ≠ [] := by
          intro hnil
          rw [hnil] at hl
          simp [List.getLast?] at hl
        simp only [hc, if_true]
        simp only [List.length_append, List.length_singleton,
          List.length_dropLast]
        have h1 : 1 ≤ s.undoStack.length := by
          cases hu : s.undoStack with
          | nil => exact absurd hu hne
          | cons x xs => simp
        omega
      · simp only [hc, if_false]
        exact pushPlain_cap h
  | undoOp =>
    show (undoStep s).1.undoStack.length ≤ s.maxLength
    rw [undoStep]
    cases s.undoStack.getLast? with
    | none => exact h
    | some action =>
      simp only [List.length_dropLast]
      omega
  | redoOp =>
    show (redoStep s).1.undoStack.length ≤ s.maxLength
    rw [redoStep]
    cases s.redoStack.getLast? with
    | none => exact h
    | some action =>
      simp only
      split
      · simp only [List.length_drop, List.length_append,
          List.length_singleton]
        omega
      · next hge =>
        simp only [List.length_append, List.length_singleton] at hge ⊢
        omega
  | clearOp => exact Nat.zero_le _
  | undoFailOp => exact h
  | redoFailOp => exact h

theorem runOps_maxLength {ops : List UMOp} :
    ∀ {s : UMState}, (runOps s ops).maxLength = s.maxLength := by
  induction ops with
  | nil => intro s; rfl
  | cons op rest ih =>
    intro s
    show (runOps (step s op) rest).maxLength = s.maxLength
    rw [ih, step_maxLength]

theorem runOps_cap {ops : List UMOp} :
    ∀ {s : UMState}, s.undoStack.length ≤ s.maxLength →
      (runOps s ops).undoStack.length ≤ s.maxLength := by
  induction ops with
  | nil => intro s h; exact h
  | cons op rest ih =>
    intro s h
    show (runOps (step s op) rest).undoStack.length ≤ s.maxLength
    have h2 := @step_cap s op h
    rw [← @step_maxLength s op]
    exact ih (by rw [step_maxLength]; exact h2)

/-- Claim C6, counterexample.  Pushing two actions with the same
groupId does merge them into a single entry, and the undo stack is
empty after one undo() call; but the merged undo procedure runs the
two underlying undo procedures in chronological order of pushing
(the first-pushed action's undo first), not in reverse order as
claimed: the source's merged closure awaits last.undo() before
action.undo().  With effect 1 for the first action's undo and effect 2
for the second's, the observed trace is 1 then 2, not 2 then 1. -/
theorem claim_C6_grouped_undo_counterexample :
    (push (push (⟨20, [], []⟩ : UMState)
      { undo := [1], redo := [11], groupId := some "g" })
      { undo := [2], redo := [12], groupId := some "g" }).undoStack.length
        = 1 ∧
    (undoStep (push (push (⟨20, [], []⟩ : UMState)
      { undo := [1], redo := [11], groupId := some "g" })
      { undo := [2], redo := [12], groupId := some "g" })).2 = [1, 2] ∧
    (undoStep (push (push (⟨20, [], []⟩ : UMState)
      { undo := [1], redo := [11], groupId := some "g" })
      { undo := [2], redo := [12], groupId := some "g" })).2 ≠ [2, 1] ∧
    (undoStep (push (push (⟨20, [], []⟩ : UMState)
      { undo := [1], redo := [11], groupId := some "g" })
      { undo := [2], redo := [12], groupId := some "g" })).1.undoStack
        = [] := by
  decide

/-- Claim C6, amended.  Pushing two actions with the same nonempty
groupId onto a manager whose undo stack is empty (capacity at least 1)
leaves a single merged entry on the undo stack; one undo() call
executes both underlying undo procedures in chronological order of
pushing — the first-pushed action's undo procedure runs before the
second-pushed action's — and afterwards the undo stack has length
zero. -/
theorem claim_C6_grouped_undo (s : UMState) (a1 a2 : UndoAction)
    (g : String) (hs : s.undoStack = []) (hmax : 1 ≤ s.maxLength)
    (hg1 : a1.groupId = some g) (hg2 : a2.groupId = some g)
    (hgne : g.data ≠ []) :
    (push (push s a1) a2).undoStack.length = 1 ∧
    (undoStep (push (push s a1) a2)).2 = a1.undo ++ a2.undo ∧
    (undoStep (push (push s a1) a2)).1.undoStack = [] := by
  have hnlt : ¬ s.maxLength < 1 := by omega
  have hge : g.data.isEmpty = false := by
    cases hgd : g.data with
    | nil => exact absurd hgd hgne
    | cons c cs => rfl
  refine ⟨?_, ?_, ?_⟩ <;>
    simp [push, pushPlain, hs, hg1, hg2, groupTruthy, hge, hnlt,
      mergedAction, undoStep]

/-- Claim C6 amended, witness: the merged-undo behaviour at two
concrete grouped actions. -/
theorem claim_C6_grouped_undo_witness :
    (push (push (⟨10, [], []⟩ : UMState)
      { undo := [3], redo := [13], groupId := some "grp" })
      { undo := [4], redo := [14], groupId := some "grp" }).undoStack.length
        = 1 ∧
    (undoStep (push (push (⟨10, [], []⟩ : UMState)
      { undo := [3], redo := [13], groupId := some "grp" })
      { undo := [4], redo := [14], groupId := some "grp" })).2 = [3, 4] ∧
    (undoStep (push (push (⟨10, [], []⟩ : UMState)
      { undo := [3], redo := [13], groupId := some "grp" })
      { undo := [4], redo := [14], groupId := some "grp" })).1.undoStack
        = [] :=
  claim_C6_grouped_undo ⟨10, [], []⟩
    { undo := [3], redo := [13], groupId := some "grp" }
    { undo := [4], redo := [14], groupId := some "grp" } "grp"
    rfl (by decide) rfl rfl (by decide)

/-- Claim C7.  Bounded history: the undo stack's length never exceeds
maxLength after any sequence of operations (pushes, successful and
failing undos and redos, clears), provided it starts within the bound;
pushing five plain actions with maxLength 3 leaves exactly the three
most recently pushed, the oldest evicted first; and a redo() that
would overflow the bound also evicts the oldest undo entry. -/
theorem claim_C7_bounded_history (ops : List UMOp) (s : UMState)
    (h : s.undoStack.length ≤ s.maxLength) :
    (runOps s ops).undoStack.length ≤ s.maxLength ∧
    (runOps (⟨3, [], []⟩ : UMState)
      [.push (actN 1), .push (actN 2), .push (actN 3), .push (actN 4),
       .push (actN 5)]).undoStack = [actN 3, actN 4, actN 5] ∧
    (runOps (⟨3, [actN 1, actN 2, actN 3], [actN 4]⟩ : UMState)
      [.redoOp]).undoStack = [actN 2, actN 3, actN 4] :=
  ⟨runOps_cap h, by decide, by decide⟩

/-- Claim C7, witness: the bound at a concrete operation sequence that
pushes over capacity, undoes and redoes. -/
theorem claim_C7_bounded_history_witness :
    (runOps (⟨2, [], []⟩ : UMState)
      [.push (actN 6), .push (actN 7), .push (actN 8), .undoOp,
       .redoOp]).undoStack.length ≤ 2 ∧
    (runOps (⟨3, [], []⟩ : UMState)
      [.push (actN 1), .push (actN 2), .push (actN 3), .push (actN 4),
       .push (actN 5)]).undoStack = [actN 3, actN 4, actN 5] ∧
    (runOps (⟨3, [actN 1, actN 2, actN 3], [actN 4]⟩ : UMState)
      [.redoOp]).undoStack = [actN 2, actN 3, actN 4] :=
  claim_C7_bounded_history
    [.push (actN 6), .push (actN 7), .push (actN 8), .undoOp, .redoOp]
    ⟨2, [], []⟩ (by decide)

end Undo

namespace Doc

open Value

/-- The stateful fields of a document subscription that the sync
protocol reads and writes: syncState, localState, waitingForUpdate,
inflightLocalState, pendingUndoOptions and isSetOperation.  States are
plain objects (field lists); loading flags, error field and listener
bookkeeping play no part in the claims and are omitted.  The model
covers the non-readOnly subscription with an onPushUndo callback
configured; UpdateOptions is its undoable field. -/
structure DocState where
  syncState : Option (List (String × Value))
  localState : Option (List (String × Value))
  waitingForUpdate : Bool
  inflightLocalState : Option (List (String × Value))
  pendingUndoOptions : Option (Option Bool)
  isSetOperation : Bool

/-- The outward effects a document operation can request: pushing an
undo action (identified by the undo and redo diffs it closes over),
dispatching a setDoc or updateDoc write, reporting a write error to
the store's error sink, and scheduling the autosave flush. -/
inductive DocEvent where
  | pushUndo (undoDiff redoDiff : List (String × Value))
  | writeSet (payload : List (String × Value))
  | writeUpdate (flat : List (String × Value))
  | reportErrorWrite
  | scheduleAutosave

/-- `currentUndoOptions?.undoable !== false`. -/
def undoableOf : Option (Option Bool) → Bool
  | some (some false) => false
  | _ => true

/-- `getMergedData()`: `state.localState ?? state.syncState`. -/
def getMergedData (s : DocState) : Option (List (String × Value)) :=
  s.localState.or s.syncState

/-- `updateState(diff, undoOptions)`: absent merged data returns with
no effect; otherwise the merged data is cloned, the diff applied
mutably (together `applyDiff`), and the result stored as localState
with the operation marked partial; the autosave flush is scheduled.
No undo action is pushed here. -/
def updateState (now : Int × Int) (s : DocState)
    (diff : List (String × Value)) (uo : Option Bool) :
    DocState × List DocEvent :=
  match getMergedData s with
  | none => (s, [])
  | some cur =>
      ({ s with localState := some (applyDiff now cur diff),
                pendingUndoOptions := some uo,
                isSetOperation := false }, [DocEvent.scheduleAutosave])

/-- `set(data, undoOptions)`: store a clone of the data as localState
and mark the pending operation as a full set. -/
def setData (s : DocState) (data : List (String × Value))
    (uo : Option Bool) : DocState × List DocEvent :=
  ({ s with localState := some (deepCloneF data),
            pendingUndoOptions := some uo,
            isSetOperation := true }, [DocEvent.scheduleAutosave])

/-- `sync()`, with `fails` telling whether the awaited write rejects.
The guard returns when localState or syncState is absent; deep-equal
states clear the dirty state without writing; otherwise one undo
action is pushed (unless suppressed by the pending options) and
exactly one write is dispatched — setDoc with the full localState when
isSetOperation was set, else updateDoc with the flattened diff.  On
failure the catch clears waitingForUpdate and inflightLocalState,
reports a write error, and schedules no retry. -/
def sync (now : Int × Int) (fails : Bool) (s : DocState) :
    DocState × List DocEvent :=
  match s.localState, s.syncState with
  | some ls, some ss =>
      if isDeepEqual (vobj ls) (vobj ss) then
        ({ s with localState := none, inflightLocalState := none }, [])
      else if fails then
        ({ s with inflightLocalState := none,
                  pendingUndoOptions := none,
                  waitingForUpdate := false,
                  isSetOperation := false },
         (if undoableOf s.pendingUndoOptions then
            [DocEvent.pushUndo (computeDiff ls ss) (computeDiff ss ls)]
          else []) ++
         [(if s.isSetOperation then DocEvent.writeSet ls
           else DocEvent.writeUpdate (flattenDiff (computeDiff ss ls)))] ++
         [DocEvent.reportErrorWrite])
      else
        ({ s with inflightLocalState := some (deepCloneF ls),
                  pendingUndoOptions := none,
                  waitingForUpdate := true,
                  isSetOperation := false },
         (if undoableOf s.pendingUndoOptions then
            [DocEvent.pushUndo (computeDiff ls ss) (computeDiff ss ls)]
          else []) ++
         [(if s.isSetOperation then DocEvent.writeSet ls
           else DocEvent.writeUpdate (flattenDiff (computeDiff ss ls)))])
  | _, _ => (s, [])

/-- `handleSnapshot(newSyncData)`: syncState is set to the snapshot
unconditionally.  If a write was in flight, the in-flight marker is
consumed; when the current localState differs from the state captured
at dispatch, the changes since dispatch are replayed onto the snapshot
(the rebase), otherwise localState is cleared. -/
def handleSnapshot (now : Int × Int) (s : DocState)
    (snap : List (String × Value)) : DocState :=
  if s.waitingForUpdate then
    match s.inflightLocalState, s.localState with
    | some infl, some cur =>
        if isDeepEqual (vobj cur) (vobj infl) then
          { s with syncState := some snap, waitingForUpdate := false,
                   inflightLocalState := none, localState := none }
        else
          { s with syncState := some snap, waitingForUpdate := false,
                   inflightLocalState := none,
                   localState :=
                     some (applyDiff now snap (computeDiff infl cur)) }
    | _, _ =>
        { s with syncState := some snap, waitingForUpdate := false,
                 inflightLocalState := none, localState := none }
  else { s with syncState := some snap }

end Doc

namespace Doc

open Value

/-- Claim C1.  Rebase rule: when a snapshot arrives while a write is
in flight, syncState becomes the snapshot unconditionally; when the
current localState is not deep-equal to the in-flight state, the new
localState is the snapshot with computeDiff(inflightState, localState)
applied; when they are deep-equal, localState is cleared.  The last
conjunct is the spec's scenario: with inflight name Bar, an
update of count to 99, and a snapshot of name Bar count 5, the rebased
localState is name Bar count 99. -/
theorem claim_C1_rebase (now : Int × Int) (s : DocState)
    (snap infl cur : List (String × Value))
    (hw : s.waitingForUpdate = true)
    (hi : s.inflightLocalState = some infl)
    (hl : s.localState = some cur) :
    ((handleSnapshot now s snap).syncState = some snap ∧
     (isDeepEqual (vobj cur) (vobj infl) = false →
       (handleSnapshot now s snap).localState
         = some (applyDiff now snap (computeDiff infl cur))) ∧
     (isDeepEqual (vobj cur) (vobj infl) = true →
       (handleSnapshot now s snap).localState = none)) ∧
    (handleSnapshot (0, 0)
      ((updateState (0, 0)
        (⟨some [("name", vstr "Foo")], some [("name", vstr "Bar")], true,
          some [("name", vstr "Bar")], none, false⟩ : DocState)
        [("count", vint 99)] none).1)
      [("name", vstr "Bar"), ("count", vint 5)]).localState
    = some [("name", vstr "Bar"), ("count", vint 99)] := by
  constructor
  · refine ⟨?_, ?_, ?_⟩
    · rw [handleSnapshot]
      simp only [hw, if_true, hi, hl]
      cases h : isDeepEqual (vobj cur) (vobj infl) <;> simp [h]
    · intro h
      rw [handleSnapshot]
      simp only [hw, if_true, hi, hl, h]
      try simp
    · intro h
      rw [handleSnapshot]
      simp only [hw, if_true, hi, hl, h]
      try simp
  · simp [updateState, getMergedData, handleSnapshot, computeDiff,
      computeDiffF, cdLoop1, cdLoop2, keysOf, keysF, getProp, lookupF,
      jsStrictEqOpt, jsStrictEq, deepEqOpt, isDeepEqual, setKey,
      defaultFrom, applyDiff, applyDiffF, deepCloneF, deepClone, eraseKey,
      deepEqF]

/-- Claim C1, witness: the rebase rule applied at a concrete in-flight
state where the local state changed since dispatch. -/
theorem claim_C1_rebase_witness :
    (((handleSnapshot (0, 0)
        (⟨some [("a", vint 1)], some [("b", vint 2)], true,
          some [("a", vint 1)], none, false⟩ : DocState)
        [("a", vint 3)]).syncState = some [("a", vint 3)] ∧
      (isDeepEqual (vobj [("b", vint 2)]) (vobj [("a", vint 1)]) = false →
        (handleSnapshot (0, 0)
          (⟨some [("a", vint 1)], some [("b", vint 2)], true,
            some [("a", vint 1)], none, false⟩ : DocState)
          [("a", vint 3)]).localState
          = some (applyDiff (0, 0) [("a", vint 3)]
              (computeDiff [("a", vint 1)] [("b", vint 2)]))) ∧
      (isDeepEqual (vobj [("b", vint 2)]) (vobj [("a", vint 1)]) = true →
        (handleSnapshot (0, 0)
          (⟨some [("a", vint 1)], some [("b", vint 2)], true,
            some [("a", vint 1)], none, false⟩ : DocState)
          [("a", vint 3)]).localState = none)) ∧
     (handleSnapshot (0, 0)
       ((updateState (0, 0)
         (⟨some [("name", vstr "Foo")], some [("name", vstr "Bar")], true,
           some [("name", vstr "Bar")], none, false⟩ : DocState)
         [("count", vint 99)] none).1)
       [("name", vstr "Bar"), ("count", vint 5)]).localState
     = some [("name", vstr "Bar"), ("count", vint 99)]) :=
  claim_C1_rebase (0, 0)
    ⟨some [("a", vint 1)], some [("b", vint 2)], true,
      some [("a", vint 1)], none, false⟩
    [("a", vint 3)] [("a", vint 1)] [("b", vint 2)] rfl rfl rfl

/-- Claim C2, the code bug.  With localState present, not deep-equal
to syncState, and isSetOperation set — the spec's document-creation
path, where set() was called before any snapshot arrived so syncState
is absent — sync() dispatches no write at all and leaves the state
unchanged: the guard at the top of sync() returns when syncState is
undefined.  In contrast, the same local data with a present syncState
dispatches exactly one setDoc write, showing the guard alone blocks
the creation path the spec (and the code's own comment on the setDoc
branch) promises. -/
theorem claim_C2_set_creation_code_bug :
    (sync (0, 0) false
      (⟨none, some [("name", vstr "New")], false, none, none, true⟩ :
        DocState)).1
      = ⟨none, some [("name", vstr "New")], false, none, none, true⟩ ∧
    (sync (0, 0) false
      (⟨none, some [("name", vstr "New")], false, none, none, true⟩ :
        DocState)).2 = [] ∧
    (sync (0, 0) false
      (⟨some [], some [("name", vstr "New")], false, none, none, true⟩ :
        DocState)).2
      = [DocEvent.pushUndo [("name", vdel)] [("name", vstr "New")],
         DocEvent.writeSet [("name", vstr "New")]] := by
  refine ⟨rfl, rfl, ?_⟩
  simp [sync, undoableOf, computeDiff, computeDiffF, cdLoop1, cdLoop2,
    keysOf, keysF, getProp, lookupF, jsStrictEqOpt, jsStrictEq, deepEqOpt,
    isDeepEqual, setKey, defaultFrom, applyDiff, applyDiffF, deepCloneF,
    deepClone, eraseKey, deepEqF]

/-- Claim C4.  Edits coalesce per flush: update() never pushes an undo
action or dispatches a write (it only stores the new localState and
schedules the autosave flush), and one sync() flush on a dirty
document pushes exactly one undo action and dispatches exactly one
write carrying the whole accumulated diff.  The last conjunct is the
spec's scenario: two updates against syncState name Foo count 5
produce the single flush diff name Bar count 10. -/
theorem claim_C4_coalesce (now : Int × Int) (s : DocState)
    (diff : List (String × Value)) (uo : Option Bool)
    (ls ss : List (String × Value))
    (hl : s.localState = some ls) (hs : s.syncState = some ss)
    (hne : isDeepEqual (vobj ls) (vobj ss) = false)
    (hu : undoableOf s.pendingUndoOptions = true)
    (hset : s.isSetOperation = false) :
    ((updateState now s diff uo).2 = [] ∨
      (updateState now s diff uo).2 = [DocEvent.scheduleAutosave]) ∧
    (sync now false s).2
      = [DocEvent.pushUndo (computeDiff ls ss) (computeDiff ss ls),
         DocEvent.writeUpdate (flattenDiff (computeDiff ss ls))] ∧
    (sync (0, 0) false
      ((updateState (0, 0)
        ((updateState (0, 0)
          (⟨some [("name", vstr "Foo"), ("count", vint 5)], none, false,
            none, none, false⟩ : DocState)
          [("name", vstr "Bar")] none).1)
        [("count", vint 10)] none).1)).2
      = [DocEvent.pushUndo [("name", vstr "Foo"), ("count", vint 5)]
           [("name", vstr "Bar"), ("count", vint 10)],
         DocEvent.writeUpdate
           [("name", vstr "Bar"), ("count", vint 10)]] := by
  refine ⟨?_, ?_, ?_⟩
  · cases hm : getMergedData s with
    | none => rw [updateState, hm]; exact Or.inl rfl
    | some cur => rw [updateState, hm]; exact Or.inr rfl
  · rw [sync]
    simp only [hl, hs, hne, hu, hset]
    simp
  · simp [sync, undoableOf, updateState, getMergedData, flattenDiff,
      fdAux, pathStr, computeDiff, computeDiffF, cdLoop1, cdLoop2, keysOf,
      keysF, getProp, lookupF, jsStrictEqOpt, jsStrictEq, deepEqOpt,
      isDeepEqual, setKey, defaultFrom, applyDiff, applyDiffF, deepCloneF,
      deepClone, eraseKey, deepEqF]

/-- Claim C4, witness: the coalescing flush at a concrete dirty
document. -/
theorem claim_C4_coalesce_witness :
    (((updateState (0, 0)
        (⟨some [("x", vint 1)], some [("x", vint 2)], false, none, none,
          false⟩ : DocState) [("y", vint 9)] none).2 = [] ∨
      (updateState (0, 0)
        (⟨some [("x", vint 1)], some [("x", vint 2)], false, none, none,
          false⟩ : DocState) [("y", vint 9)] none).2
        = [DocEvent.scheduleAutosave]) ∧
     (sync (0, 0) false
       (⟨some [("x", vint 1)], some [("x", vint 2)], false, none, none,
         false⟩ : DocState)).2
       = [DocEvent.pushUndo
            (computeDiff [("x", vint 2)] [("x", vint 1)])
            (computeDiff [("x", vint 1)] [("x", vint 2)]),
          DocEvent.writeUpdate
            (flattenDiff (computeDiff [("x", vint 1)] [("x", vint 2)]))] ∧
     (sync (0, 0) false
       ((updateState (0, 0)
         ((updateState (0, 0)
           (⟨some [("name", vstr "Foo"), ("count", vint 5)], none, false,
             none, none, false⟩ : DocState)
           [("name", vstr "Bar")] none).1)
         [("count", vint 10)] none).1)).2
       = [DocEvent.pushUndo [("name", vstr "Foo"), ("count", vint 5)]
            [("name", vstr "Bar"), ("count", vint 10)],
          DocEvent.writeUpdate
            [("name", vstr "Bar"), ("count", vint 10)]]) :=
  claim_C4_coalesce (0, 0)
    ⟨some [("x", vint 1)], some [("x", vint 2)], false, none, none, false⟩
    [("y", vint 9)] none [("x", vint 2)] [("x", vint 1)] rfl rfl
    (by simp [isDeepEqual, keysF, lookupF, jsStrictEqOpt, jsStrictEq,
      deepEqOpt, deepEqF, getProp]) rfl rfl

end Doc

namespace Col

open Value

/-- The stateful fields of a collection subscription: keyed states map
document ids to document objects.  As for documents, loading flags and
listener bookkeeping are omitted and the model covers the non-readOnly
subscription with an onPushUndo callback configured. -/
structure ColState where
  syncState : Option (List (String × Value))
  localState : Option (List (String × Value))
  waitingForUpdate : Bool
  inflightLocalState : Option (List (String × Value))
  pendingUndoOptions : Option (Option Bool)

/-- The outward effects of a collection operation: pushing an undo
action, the three batch operations sync() enqueues per document, the
write-error report, and scheduling the autosave flush. -/
inductive ColEvent where
  | pushUndo (undoDiff redoDiff : List (String × Value))
  | batchDelete (docId : String)
  | batchSet (docId : String) (payload : Value)
  | batchUpdate (docId : String) (flat : List (String × Value))
  | reportErrorWrite
  | scheduleAutosave

/-- The id-stamping loop: `for each [docId, docData]` the source sets
`docData.id = docId` whenever `docData && typeof docData === 'object'`.
That JS condition is also true of arrays, Timestamps and sentinels,
onto which the source would set an `id` property; such values cannot
carry string properties in this model and are left unchanged — the
claims concern plain-object documents. -/
def stampF : List (String × Value) → List (String × Value)
  | [] => []
  | (k, .vobj fs) :: rest => (k, vobj (setKey fs "id" (vstr k))) :: stampF rest
  | (k, v) :: rest => (k, v) :: stampF rest

/-- `getMergedData()` for collections:
`state.localState ?? state.syncState ?? {}` — unlike the document
version it never returns undefined, defaulting to the empty map. -/
def getMergedC (s : ColState) : List (String × Value) :=
  (s.localState.or s.syncState).getD []

/-- Collection `updateState(diff, undoOptions)`: clone the merged map
(the empty map when no state is present yet), apply the diff, stamp
every document's id, store as localState, schedule the autosave flush.
There is no data-presence guard in the collection source. -/
def updateState (now : Int × Int) (s : ColState)
    (diff : List (String × Value)) (uo : Option Bool) :
    ColState × List ColEvent :=
  ({ s with localState := some (stampF (applyDiff now (getMergedC s) diff)),
            pendingUndoOptions := some uo }, [ColEvent.scheduleAutosave])

/-- `add(id, data)`: clone the merged map (the empty map when no state
is present yet) and store the new document as the spread of its data
with the id field set last, scheduling the autosave flush. -/
def addDocument (s : ColState) (docId : String)
    (data : List (String × Value)) (uo : Option Bool) :
    ColState × List ColEvent :=
  ({ s with
    localState := some (setKey (deepCloneF (getMergedC s)) docId
      (vobj (setKey data "id" (vstr docId)))),
    pendingUndoOptions := some uo }, [ColEvent.scheduleAutosave])

/-- One batch operation of collection sync(): a deleteField document
diff deletes the document (`docDiff.isEqual(deleteField())` holds
exactly for that sentinel), a key absent from syncState is created
with set, and an existing document is updated with its flattened diff
(`flattenDiff` iterates the diff's own keys, hence `objFields`). -/
def batchOp (ss : List (String × Value)) (docId : String) (dv : Value) :
    ColEvent :=
  match dv with
  | .vdel => ColEvent.batchDelete docId
  | v =>
      if (lookupF ss docId).isNone then ColEvent.batchSet docId v
      else ColEvent.batchUpdate docId (Value.flattenDiff (objFields v))

/-- Collection `sync()`, with `fails` telling whether the awaited
batch commit rejects; the structure mirrors the document sync(),
dispatching one batch operation per entry of the diff. -/
def syncC (now : Int × Int) (fails : Bool) (s : ColState) :
    ColState × List ColEvent :=
  match s.localState, s.syncState with
  | some ls, some ss =>
      if isDeepEqual (vobj ls) (vobj ss) then
        ({ s with localState := none, inflightLocalState := none }, [])
      else if fails then
        ({ s with inflightLocalState := none,
                  pendingUndoOptions := none,
                  waitingForUpdate := false },
         (if Doc.undoableOf s.pendingUndoOptions then
            [ColEvent.pushUndo (computeDiff ls ss) (computeDiff ss ls)]
          else []) ++
         (computeDiff ss ls).map (fun kv => batchOp ss kv.1 kv.2) ++
         [ColEvent.reportErrorWrite])
      else
        ({ s with inflightLocalState := some (deepCloneF ls),
                  pendingUndoOptions := none,
                  waitingForUpdate := true },
         (if Doc.undoableOf s.pendingUndoOptions then
            [ColEvent.pushUndo (computeDiff ls ss) (computeDiff ss ls)]
          else []) ++
         (computeDiff ss ls).map (fun kv => batchOp ss kv.1 kv.2))
  | _, _ => (s, [])

/-- The syncState a snapshot builds: one entry per snapshot document,
the document data spread with its id set last. -/
def buildSnap (docs : List (String × List (String × Value))) :
    List (String × Value) :=
  docs.foldl
    (fun m kv => setKey m kv.1 (vobj (setKey kv.2 "id" (vstr kv.1)))) []

/-- Collection `handleSnapshot(docs)`: build the keyed syncState from
the snapshot documents, then rebase exactly as the document
subscription does, re-stamping the ids of the rebased localState. -/
def handleSnapshotC (now : Int × Int) (s : ColState)
    (docs : List (String × List (String × Value))) : ColState :=
  if s.waitingForUpdate then
    match s.inflightLocalState, s.localState with
    | some infl, some cur =>
        if isDeepEqual (vobj cur) (vobj infl) then
          { s with syncState := some (buildSnap docs),
                   waitingForUpdate := false,
                   inflightLocalState := none, localState := none }
        else
          { s with syncState := some (buildSnap docs),
                   waitingForUpdate := false,
                   inflightLocalState := none,
                   localState := some (stampF (applyDiff now
                     (buildSnap docs) (computeDiff infl cur))) }
    | _, _ =>
        { s with syncState := some (buildSnap docs),
                 waitingForUpdate := false,
                 inflightLocalState := none, localState := none }
  else { s with syncState := some (buildSnap docs) }

/-- The id-stamping property of one entry: a plain-object document has
its id field equal to its key; the claim concerns plain-object
documents, so other values carry no obligation. -/
def entryStamped (k : String) : Value → Bool
  | .vobj fs =>
      match lookupF fs "id" with
      | some (.vstr s) => s == k
      | _ => false
  | _ => true

/-- Every entry of a keyed map is stamped. -/
def stampedF (m : List (String × Value)) : Bool :=
  m.all (fun kv => entryStamped kv.1 kv.2)

/-- `stampedF` lifted to an optional state; an absent state holds no
keys. -/
def stampedOpt : Option (List (String × Value)) → Bool
  | none => true
  | some m => stampedF m

theorem stampedF_stampF (m : List (String × Value)) :
    stampedF (stampF m) = true := by
  induction m with
  | nil => rfl
  | cons kv rest ih =>
    obtain ⟨k, v⟩ := kv
    cases v with
    | vobj fs =>
      simp [stampF, stampedF, entryStamped, lookupF_setKey_self] at ih ⊢
      exact ih
    | _ =>
      simp [stampF, stampedF, entryStamped] at ih ⊢
      exact ih

theorem stampedF_setKey {m : List (String × Value)} {k : String}
    {v : Value} (hm : stampedF m = true) (hv : entryStamped k v = true) :
    stampedF (setKey m k v) = true := by
  induction m with
  | nil => simp [setKey, stampedF, hv]
  | cons kv rest ih =>
    obtain ⟨k0, v0⟩ := kv
    simp only [stampedF, List.all_cons, Bool.and_eq_true] at hm
    by_cases h : k0 = k
    · subst h
      simp [setKey, stampedF, hv, hm.2]
    · simp only [setKey, if_neg h]
      simp only [stampedF, List.all_cons, Bool.and_eq_true]
      exact ⟨hm.1, ih hm.2⟩

theorem stampedF_buildSnap_aux
    (docs : List (String × List (String × Value))) :
    ∀ m, stampedF m = true → stampedF
      (docs.foldl (fun m2 kv =>
        setKey m2 kv.1 (vobj (setKey kv.2 "id" (vstr kv.1)))) m) = true := by
  induction docs with
  | nil => intro m hm; exact hm
  | cons kv rest ih =>
    intro m hm
    obtain ⟨docId, data⟩ := kv
    refine ih _ (stampedF_setKey hm ?_)
    simp [entryStamped, lookupF_setKey_self]

theorem stampedF_buildSnap (docs : List (String × List (String × Value))) :
    stampedF (buildSnap docs) = true :=
  stampedF_buildSnap_aux docs [] rfl

end Col

namespace Col

open Value

theorem handleSnapshotC_syncState {now : Int × Int} {s : ColState}
    {docs : List (String × List (String × Value))} :
    (handleSnapshotC now s docs).syncState = some (buildSnap docs) := by
  rw [handleSnapshotC]
  split
  · split
    · split <;> rfl
    · rfl
  · rfl

/-- Claim C10.  Id-stamping invariant: each collection operation that
produces a new keyed state stamps every plain-object entry's id field
with its key — update() and the post-snapshot rebase via the stamping
loop, add() by spreading the data with the id set last, and snapshot
ingestion by building each entry that way — so localState and
syncState only ever hold entries whose id equals their key.  update()
and add() stamp unconditionally, also from the empty merged map a
collection has before any snapshot or edit; the merged-state
hypotheses say the map being read is itself sentinel-free and stamped,
as the empty map and every map these operations build are. -/
theorem claim_C10_id_stamping (now : Int × Int) (s : ColState)
    (diff data : List (String × Value)) (docId : String) (uo : Option Bool)
    (docs : List (String × List (String × Value)))
    (hsf : sfF (getMergedC s) = true)
    (hst : stampedF (getMergedC s) = true) :
    stampedOpt (updateState now s diff uo).1.localState = true ∧
    stampedOpt (addDocument s docId data uo).1.localState = true ∧
    stampedOpt (handleSnapshotC now s docs).syncState = true ∧
    stampedOpt (handleSnapshotC now s docs).localState = true := by
  have hloc : stampedOpt s.localState = true := by
    cases hl : s.localState with
    | none => rfl
    | some m =>
      have hg : getMergedC s = m := by
        simp [getMergedC, hl]
      rw [hg] at hst
      exact hst
  refine ⟨?_, ?_, ?_, ?_⟩
  · rw [updateState]
    simp [stampedOpt, stampedF_stampF]
  · rw [addDocument]
    show stampedOpt (some (setKey (deepCloneF (getMergedC s)) docId
      (vobj (setKey data "id" (vstr docId))))) = true
    rw [deepCloneF_id hsf]
    exact stampedF_setKey hst
      (by simp [entryStamped, lookupF_setKey_self])
  · rw [handleSnapshotC_syncState]
    exact stampedF_buildSnap docs
  · rw [handleSnapshotC]
    split
    · split
      · split
        · rfl
        · simp [stampedOpt, stampedF_stampF]
      · rfl
    · exact hloc

end Col

namespace Col

open Value

/-- Claim C10, witness: the four operations at the concrete collection
state before any snapshot or edit, where update() and add() build the
new stamped localState from the empty merged map. -/
theorem claim_C10_id_stamping_witness :
    stampedOpt (updateState (0, 0)
      (⟨none, none, false, none, none⟩ : ColState)
      [("d1", vobj [("n", vint 2)])] none).1.localState = true ∧
    stampedOpt (addDocument
      (⟨none, none, false, none, none⟩ : ColState)
      "d2" [("m", vint 7)] none).1.localState = true ∧
    stampedOpt (handleSnapshotC (0, 0)
      (⟨none, none, false, none, none⟩ : ColState)
      [("d3", [("p", vint 9)])]).syncState = true ∧
    stampedOpt (handleSnapshotC (0, 0)
      (⟨none, none, false, none, none⟩ : ColState)
      [("d3", [("p", vint 9)])]).localState = true :=
  claim_C10_id_stamping (0, 0)
    ⟨none, none, false, none, none⟩
    [("d1", vobj [("n", vint 2)])] [("m", vint 7)] "d2" none
    [("d3", [("p", vint 9)])]
    (by simp [getMergedC, sfF]) (by simp [getMergedC, stampedF])

theorem batchOp_ne_autosave (ss : List (String × Value)) (k : String)
    (dv : Value) : batchOp ss k dv ≠ ColEvent.scheduleAutosave := by
  cases dv
  case vdel => simp [batchOp]
  all_goals
    simp only [batchOp]
    split <;> simp

end Col

namespace Doc

open Value

/-- Claim C5.  Write-error atomicity, for documents and collections:
when the dispatched write fails, the catch clears waitingForUpdate and
inflightLocalState, leaves localState and syncState untouched (the
local edit is preserved, not rolled back), reports one write error,
and schedules no retry; a later flush of the still-dirty document
dispatches the same flattened outbound diff again (shown for the
partial-update path; a failed set operation retries as a partial
update because isSetOperation is consumed before the write). -/
theorem claim_C5_write_error_atomicity (now : Int × Int) (s : DocState)
    (ls ss : List (String × Value)) (cs : Col.ColState)
    (cls css : List (String × Value))
    (hl : s.localState = some ls) (hs : s.syncState = some ss)
    (hne : isDeepEqual (vobj ls) (vobj ss) = false)
    (hcl : cs.localState = some cls) (hcs : cs.syncState = some css)
    (hcne : isDeepEqual (vobj cls) (vobj css) = false) :
    ((sync now true s).1.waitingForUpdate = false ∧
     (sync now true s).1.inflightLocalState = none ∧
     (sync now true s).1.localState = s.localState ∧
     (sync now true s).1.syncState = s.syncState ∧
     DocEvent.reportErrorWrite ∈ (sync now true s).2 ∧
     DocEvent.scheduleAutosave ∉ (sync now true s).2 ∧
     (s.isSetOperation = false →
       DocEvent.writeUpdate (flattenDiff (computeDiff ss ls))
         ∈ (sync now false ((sync now true s).1)).2)) ∧
    ((Col.syncC now true cs).1.waitingForUpdate = false ∧
     (Col.syncC now true cs).1.inflightLocalState = none ∧
     (Col.syncC now true cs).1.localState = cs.localState ∧
     (Col.syncC now true cs).1.syncState = cs.syncState ∧
     Col.ColEvent.reportErrorWrite ∈ (Col.syncC now true cs).2 ∧
     Col.ColEvent.scheduleAutosave ∉ (Col.syncC now true cs).2) := by
  have hdoc1 : (sync now true s).1
      = { s with inflightLocalState := none, pendingUndoOptions := none,
                 waitingForUpdate := false, isSetOperation := false } := by
    rw [sync]
    simp [hl, hs, hne]
  have hdoc2 : (sync now true s).2
      = (if undoableOf s.pendingUndoOptions then
           [DocEvent.pushUndo (computeDiff ls ss) (computeDiff ss ls)]
         else []) ++
        [(if s.isSetOperation then DocEvent.writeSet ls
          else DocEvent.writeUpdate (flattenDiff (computeDiff ss ls)))] ++
        [DocEvent.reportErrorWrite] := by
    rw [sync]
    simp [hl, hs, hne]
  have hcol1 : (Col.syncC now true cs).1
      = { cs with inflightLocalState := none, pendingUndoOptions := none,
                  waitingForUpdate := false } := by
    rw [Col.syncC]
    simp [hcl, hcs, hcne]
  have hcol2 : (Col.syncC now true cs).2
      = (if undoableOf cs.pendingUndoOptions then
           [Col.ColEvent.pushUndo (computeDiff cls css)
             (computeDiff css cls)]
         else []) ++
        (computeDiff css cls).map
          (fun kv => Col.batchOp css kv.1 kv.2) ++
        [Col.ColEvent.reportErrorWrite] := by
    rw [Col.syncC]
    simp [hcl, hcs, hcne]
  refine ⟨⟨?_, ?_, ?_, ?_, ?_, ?_, ?_⟩, ?_, ?_, ?_, ?_, ?_, ?_⟩
  · rw [hdoc1]
  · rw [hdoc1]
  · rw [hdoc1]
  · rw [hdoc1]
  · rw [hdoc2]; simp
  · rw [hdoc2]
    cases hu : undoableOf s.pendingUndoOptions <;>
      cases hset : s.isSetOperation <;> simp
  · intro hset
    rw [sync, hdoc1]
    simp [hl, hs, hne, hset]
  · rw [hcol1]
  · rw [hcol1]
  · rw [hcol1]
  · rw [hcol1]
  · rw [hcol2]; simp
  · rw [hcol2]
    intro hmem
    rcases List.mem_append.mp hmem with h12 | h3
    · rcases List.mem_append.mp h12 with h1 | h2
      · revert h1
        cases hu : undoableOf cs.pendingUndoOptions <;> simp
      · simp only [List.mem_map] at h2
        obtain ⟨kv, _, hkv⟩ := h2
        exact Col.batchOp_ne_autosave css kv.1 kv.2 hkv
    · simp at h3

end Doc

namespace Doc

open Value

/-- A concrete dirty document state for the write-failure witness. -/
def sEx : DocState :=
  ⟨some [("x", vint 1)], some [("x", vint 2)], false, none, none, false⟩

/-- A concrete dirty collection state for the write-failure witness. -/
def csEx : Col.ColState :=
  ⟨some [("d", vint 2)], some [("d", vint 1)], false, none, none⟩

/-- Claim C5, witness: the failure path at a concrete dirty document
and collection. -/
theorem claim_C5_write_error_atomicity_witness :
    ((sync (0, 0) true sEx).1.waitingForUpdate = false ∧
     (sync (0, 0) true sEx).1.inflightLocalState = none ∧
     (sync (0, 0) true sEx).1.localState = sEx.localState ∧
     (sync (0, 0) true sEx).1.syncState = sEx.syncState ∧
     DocEvent.reportErrorWrite ∈ (sync (0, 0) true sEx).2 ∧
     DocEvent.scheduleAutosave ∉ (sync (0, 0) true sEx).2 ∧
     (sEx.isSetOperation = false →
       DocEvent.writeUpdate
           (flattenDiff (computeDiff [("x", vint 1)] [("x", vint 2)]))
         ∈ (sync (0, 0) false ((sync (0, 0) true sEx).1)).2)) ∧
    ((Col.syncC (0, 0) true csEx).1.waitingForUpdate = false ∧
     (Col.syncC (0, 0) true csEx).1.inflightLocalState = none ∧
     (Col.syncC (0, 0) true csEx).1.localState = csEx.localState ∧
     (Col.syncC (0, 0) true csEx).1.syncState = csEx.syncState ∧
     Col.ColEvent.reportErrorWrite ∈ (Col.syncC (0, 0) true csEx).2 ∧
     Col.ColEvent.scheduleAutosave ∉ (Col.syncC (0, 0) true csEx).2) :=
  claim_C5_write_error_atomicity (0, 0) sEx [("x", vint 2)] [("x", vint 1)]
    csEx [("d", vint 1)] [("d", vint 2)]
    rfl rfl
    (by simp [isDeepEqual, keysF, lookupF, jsStrictEqOpt, jsStrictEq,
      deepEqOpt, deepEqF, getProp])
    rfl rfl
    (by simp [isDeepEqual, keysF, lookupF, jsStrictEqOpt, jsStrictEq,
      deepEqOpt, deepEqF, getProp])

end Doc

end Firestate
